import Mathlib

/-!
# Verification of the xlang_vm evaluator and scope subsystem

Shallow embedding of `src/xlang_vm/src/scope.rs` and
`src/xlang_vm/src/evaluator.rs`.  The shared-mutable scope graph
(`Rf<Scope>` handles) is embedded as an arena: scope nodes live in a list
indexed by address (`Nat`), and an `Rf<Scope>` handle becomes an address.
The crates `xlang_core` (AST, tokens) and the modules `const_value.rs` /
`error.rs` are not part of the sources; their definitions are modelled
from the spec where needed.
-/

namespace XlangVm

/-- Source range of a token / AST node.  Modelled from the spec:
`xlang_core` tokens "carry source spans for diagnostics"; the concrete
representation is not in the sources, so a span is a pair of positions. -/
structure Range where
  lo : Nat
  hi : Nat
deriving DecidableEq, Repr

/-- Modelled from the spec: the binary operator tokens of `xlang_core`.
The arithmetic table supports `+ - * / ^`; `=` and `.` are special-cased;
`lessThan` stands for the remaining operator tokens ("other operators on
numeric pairs yield empty"). -/
inductive Operator where
  | plus
  | minus
  | multiply
  | divide
  | exponent
  | equals
  | dot
  | lessThan
deriving DecidableEq, Repr

mutual
/-- Modelled from the spec (§3 Data Model): the closed `Type` variant of
`const_value.rs`.  `symbol` holds a reference into the scope graph
(an arena address in this embedding).  The ordered name-to-type maps of
functions and record instances are embedded as the mutual list type
`TyEnv` (the `LinkedHashMap<String, Type>` of the sources). -/
inductive Ty where
  | empty
  | coercibleInteger
  | coercibleFloat
  | integer (width : Nat) (signed : Bool)
  | float (width : Nat)
  | function (parameters : TyEnv) (returnParameters : TyEnv)
  | recordInstance (members : TyEnv)
  | symbol (addr : Nat)
deriving DecidableEq, Repr

/-- An insertion-ordered association list of named types
(`LinkedHashMap<String, Type>` in the sources). -/
inductive TyEnv where
  | nil
  | cons (name : String) (ty : Ty) (rest : TyEnv)
deriving DecidableEq, Repr
end

namespace TyEnv

/-- `LinkedHashMap::get` on an ordered name-to-type map. -/
def lookup (name : String) : TyEnv → Option Ty
  | .nil => none
  | .cons n t rest => if n = name then some t else lookup name rest

/-- `LinkedHashMap::insert`: replace the value of an existing key in
place, otherwise append at the end. -/
def insert (name : String) (ty : Ty) : TyEnv → TyEnv
  | .nil => .cons name ty .nil
  | .cons n t rest => if n = name then .cons name ty rest else .cons n t (insert name ty rest)

def length : TyEnv → Nat
  | .nil => 0
  | .cons _ _ rest => length rest + 1

/-- Positional access to an ordered name-to-type map (the
`LinkedHashMap` iteration order used by the call protocol's zip). -/
def get? : Nat → TyEnv → Option (String × Ty)
  | _, .nil => none
  | 0, .cons n t _ => some (n, t)
  | k + 1, .cons _ _ rest => get? k rest

/-- The first `n` entries of an ordered name-to-type map. -/
def take : Nat → TyEnv → TyEnv
  | 0, _ => .nil
  | _, .nil => .nil
  | k + 1, .cons n t rest => .cons n t (take k rest)

end TyEnv

/-- Modelled from the spec (§6): the `xlang_core` type annotations consumed
by `Evaluator::evaluate_type` — sized integer / sized float / identifier. -/
inductive AstType where
  | integer (width : Nat) (signed : Bool)
  | float (width : Nat)
  | ident (name : String)
deriving DecidableEq, Repr

/-- Modelled from the spec (§6): a parameter entry carries an optional
name token and an optional type annotation. -/
structure Param where
  name : Option String
  ty : Option AstType
deriving DecidableEq, Repr

mutual
/-- Modelled from the spec (§6): the `xlang_core` expression AST consumed
by the evaluator.  `binary` mirrors `Expression::BinaryExpression`, whose
operands and operator token are optional in the sources; every node
carries a source range (`AstNode::get_range`). -/
inductive Expression where
  | integer (val : Nat) (range : Range)
  | floatLit (bits : Nat) (range : Range)
  | ident (name : String) (range : Range)
  | binary (left : Option Expression) (op : Option Operator) (right : Option Expression)
      (range : Range)
  | functionCall (callee : Expression) (args : List Expression) (range : Range)
  | functionLit (params : List Param) (rets : List Param) (body : Option Statement)
      (range : Range)
  | record (params : List Param) (range : Range)

/-- Modelled from the spec (§6): the `xlang_core` statement AST.
`decleration` keeps the source spelling; `other` stands for the remaining
statement variants, which the evaluator treats as no-ops. -/
inductive Statement where
  | decleration (ident : String) (identRange : Range) (annot : Option AstType)
      (expr : Option Expression)
  | expression (e : Expression)
  | list (stmts : List Statement)
  | other
end

/-- `AstNode::get_range` (modelled from the spec: every AST node carries a
source span for diagnostics). -/
def Expression.get_range : Expression → Range
  | .integer _ r => r
  | .floatLit _ r => r
  | .ident _ r => r
  | .binary _ _ _ r => r
  | .functionCall _ _ r => r
  | .functionLit _ _ _ r => r
  | .record _ r => r

mutual
/-- `ConstValue` of `const_value.rs` (modelled from the spec §3): a
(type, kind) pair. -/
inductive ConstValue where
  | mk (ty : Ty) (kind : ConstValueKind)

/-- `ConstValueKind` (modelled from the spec §3 and the patterns the
evaluator destructures): raw integer/float bits, a function's body plus
captured-scope reference `rf`, an ordered member map for record
instances, or empty. -/
inductive ConstValueKind where
  | empty
  | integer (bits : Nat)
  | floatBits (bits : Nat)
  | function (body : Statement) (rf : Nat)
  | recordInstance (members : CvEnv)

/-- An insertion-ordered association list of named constant values
(`LinkedHashMap<String, ConstValue>` in the sources). -/
inductive CvEnv where
  | nil
  | cons (name : String) (v : ConstValue) (rest : CvEnv)
end

def ConstValue.ty : ConstValue → Ty
  | .mk t _ => t

def ConstValue.kind : ConstValue → ConstValueKind
  | .mk _ k => k

namespace CvEnv

/-- `LinkedHashMap::get` on an ordered member map. -/
def lookup (name : String) : CvEnv → Option ConstValue
  | .nil => none
  | .cons n v rest => if n = name then some v else lookup name rest

/-- `LinkedHashMap::get_mut` followed by an in-place overwrite: replace
the value of an existing key, keeping its position; absent keys leave the
map unchanged. -/
def setExisting (name : String) (v : ConstValue) : CvEnv → CvEnv
  | .nil => .nil
  | .cons n v0 rest =>
    if n = name then .cons n v rest else .cons n v0 (setExisting name v rest)

/-- The types of an ordered member map, used to tag a record instance. -/
def tyMap : CvEnv → TyEnv
  | .nil => .nil
  | .cons n v rest => .cons n v.ty (tyMap rest)

end CvEnv

namespace ConstValue

/-- `ConstValue::empty()`. -/
def empty : ConstValue := .mk .empty .empty

/-- `ConstValue::cinteger(v)`: a coercible integer literal value. -/
def cinteger (v : Nat) : ConstValue := .mk .coercibleInteger (.integer v)

/-- `ConstValue::cfloat(v)`: a coercible float literal value (raw bits). -/
def cfloat (v : Nat) : ConstValue := .mk .coercibleFloat (.floatBits v)

/-- `ConstValue::integer(v, width, signed)`: a sized integer value. -/
def integer (v : Nat) (width : Nat) (signed : Bool) : ConstValue :=
  .mk (.integer width signed) (.integer v)

/-- `ConstValue::float(v, width)`: a sized float value (raw bits). -/
def float (v : Nat) (width : Nat) : ConstValue := .mk (.float width) (.floatBits v)

/-- `ConstValue::func(body, parameters, return_parameters, sym)`
(modelled from the spec §3): a function value whose type carries the
parameter maps and whose kind carries the body and the captured-scope
reference. -/
def func (body : Statement) (parameters returnParameters : TyEnv) (sym : Nat) : ConstValue :=
  .mk (.function parameters returnParameters) (.function body sym)

/-- `ConstValue::record_instance(members)` (modelled from the spec §3):
a record-instance value tagged with its members' types. -/
def record_instance (members : CvEnv) : ConstValue :=
  .mk (.recordInstance members.tyMap) (.recordInstance members)

/-- `ConstValue::default_for(ty)` (modelled from the spec §4.3:
"default-for-type if unbound"): zero for numeric types, empty otherwise. -/
def default_for : Ty → ConstValue
  | .integer w s => integer 0 w s
  | .coercibleInteger => cinteger 0
  | .float w => float 0 w
  | .coercibleFloat => cfloat 0
  | _ => empty

end ConstValue

/-- `ConstValueKind::as_integer()` (modelled from the spec §3: the raw
integer bits of a numeric payload). -/
def ConstValueKind.as_integer : ConstValueKind → Nat
  | .integer b => b
  | _ => 0

/-- `ConstValueKind::as_float()` (modelled from the spec §3: the raw
float bits of a numeric payload). -/
def ConstValueKind.as_float : ConstValueKind → Nat
  | .floatBits b => b
  | _ => 0

/-- `ScopeValue` of `scope.rs`. -/
inductive ScopeValue where
  | constValue (cv : ConstValue)
  | record (ident : String) (members : TyEnv)
  | module

/-- A `Scope` node of `scope.rs`: one value plus a name-to-child map.
`Rf<Scope>` handles become arena addresses (`Nat`), so `children` maps a
name to the address of the child node. -/
structure Scope where
  value : ScopeValue
  children : List (String × Nat)

/-- `Scope::new(value)`. -/
def Scope.new (value : ScopeValue) : Scope := ⟨value, []⟩

/-- `HashMap::insert` on the children map: replace the address bound to
an existing key, otherwise add the entry. -/
def insertChild (k : String) (a : Nat) : List (String × Nat) → List (String × Nat)
  | [] => [(k, a)]
  | (k2, a2) :: rest =>
    if k2 = k then (k, a) :: rest else (k2, a2) :: insertChild k a rest

/-- `ScopeManager` of `scope.rs`, together with the arena embedding the
reference-counted heap of scope nodes: `nodes[a]` is the node whose
`Rf<Scope>` handle has address `a`. -/
structure ScopeManager where
  module : Nat
  current_scope : List Nat
  nodes : List Scope

namespace ScopeManager

/-- Dereference an arena address (a node is never read through a dangling
address in the sources; the default is irrelevant). -/
def nodeAt (sm : ScopeManager) (a : Nat) : Scope :=
  sm.nodes.getD a (Scope.new .module)

/-- Overwrite the node behind address `a` in place. -/
def setNode (sm : ScopeManager) (a : Nat) (n : Scope) : ScopeManager :=
  { sm with nodes := sm.nodes.set a n }

/-- `ScopeManager::new(module)`: the root handle is pushed once at
construction. -/
def new (nodes : List Scope) (module : Nat) : ScopeManager :=
  ⟨module, [module], nodes⟩

/-- `ScopeManager::push_scope(rf)`: innermost scope is last. -/
def push_scope (sm : ScopeManager) (rf : Nat) : ScopeManager :=
  { sm with current_scope := sm.current_scope ++ [rf] }

/-- `ScopeManager::pop_scope()`: removes and returns the innermost
handle; `remove(len - 1)` panics on an empty stack, embedded as `none`. -/
def pop_scope (sm : ScopeManager) : Option (Nat × ScopeManager) :=
  match sm.current_scope.getLast? with
  | some a => some (a, { sm with current_scope := sm.current_scope.dropLast })
  | none => none

/-- `ScopeManager::find_symbol(name)`: search the active-scope stack from
innermost (last pushed) to outermost and yield the child handle bound to
`name` in the first active node whose children contain it. -/
def find_symbol (sm : ScopeManager) (name : String) : Option Nat :=
  sm.current_scope.reverse.findSome? fun a => (sm.nodeAt a).children.lookup name

/-- `ScopeManager::update_value(name, value)`: overwrite in place if the
name resolves (returning the previous value), otherwise insert a fresh
child under the innermost active scope. -/
def update_value (sm : ScopeManager) (name : String) (value : ScopeValue) :
    ScopeManager × Option ScopeValue :=
  match sm.find_symbol name with
  | some a =>
      (sm.setNode a { sm.nodeAt a with value := value }, some (sm.nodeAt a).value)
  | none =>
      match sm.current_scope.getLast? with
      | some scp =>
          let addr := sm.nodes.length
          let sm1 : ScopeManager := { sm with nodes := sm.nodes ++ [Scope.new value] }
          (sm1.setNode scp
            { sm1.nodeAt scp with children := insertChild name addr (sm1.nodeAt scp).children },
           none)
      | none => (sm, none)

/-- `ScopeManager::insert_value(name, value)`: unconditionally insert a
fresh child under the innermost active scope; the `panic!()` on an empty
stack is embedded as `none`. -/
def insert_value (sm : ScopeManager) (name : String) (value : ScopeValue) :
    Option (Nat × ScopeManager) :=
  match sm.current_scope.getLast? with
  | some scp =>
      let addr := sm.nodes.length
      let sm1 : ScopeManager := { sm with nodes := sm.nodes ++ [Scope.new value] }
      some (addr,
        sm1.setNode scp
          { sm1.nodeAt scp with children := insertChild name addr (sm1.nodeAt scp).children })
  | none => none

/-- `ScopeManager::fom(left, right, cb)`: the inner step of chained
member access.  The `FnMut(&mut ConstValue)` mutator is embedded as a
pure function applied to the member in place. -/
def fom (sm : ScopeManager) (left right : Expression) (cb : ConstValue → ConstValue) :
    ScopeManager × Bool :=
  match left, right with
  | .ident l _, .ident r _ =>
      match sm.find_symbol l with
      | none => (sm, false)
      | some a =>
          match (sm.nodeAt a).value with
          | .constValue (.mk (.recordInstance mt) (.recordInstance members)) =>
              match members.lookup r with
              | some m =>
                  (sm.setNode a
                    { sm.nodeAt a with
                      value := .constValue
                        (.mk (.recordInstance mt) (.recordInstance (members.setExisting r (cb m)))) },
                   true)
              | none => (sm, true)
          | _ => (sm, false)
  | _, _ => (sm, false)

/-- The mutator `follow_member_access_mut` hands to `fom` in the nested
shape: descend one more member if the reached value is a record instance
holding it, else leave the value unchanged. -/
def descendMember (memberRight : String) (cb : ConstValue → ConstValue)
    (cv : ConstValue) : ConstValue :=
  match cv with
  | .mk (.recordInstance mt) (.recordInstance members) =>
      match members.lookup memberRight with
      | some m => .mk (.recordInstance mt) (.recordInstance (members.setExisting memberRight (cb m)))
      | none => .mk (.recordInstance mt) (.recordInstance members)
  | cv => cv

/-- `ScopeManager::follow_member_access_mut(left, right, cb)`. -/
def follow_member_access_mut (sm : ScopeManager) (left right : Expression)
    (cb : ConstValue → ConstValue) : ScopeManager × Bool :=
  match left, right with
  | .ident l _, .ident r _ =>
      match sm.find_symbol l with
      | none => (sm, false)
      | some a =>
          match (sm.nodeAt a).value with
          | .constValue (.mk (.recordInstance mt) (.recordInstance members)) =>
              match members.lookup r with
              | some m =>
                  (sm.setNode a
                    { sm.nodeAt a with
                      value := .constValue
                        (.mk (.recordInstance mt) (.recordInstance (members.setExisting r (cb m)))) },
                   true)
              | none => (sm, true)
          | _ => (sm, false)
  | .binary (some il) (some .dot) (some ir) _, .ident mr _ =>
      sm.fom il ir (descendMember mr cb)
  | _, _ => (sm, false)

end ScopeManager

/-- Modelled from the spec (§7): the structured error kinds of
`error.rs`.  The taxonomy contains exactly `TypeMismatch(found,
expected)`. -/
inductive EvaluationErrorKind where
  | typeMismatch (found expected : Ty)

/-- `EvaluationError` of `error.rs` (modelled from the spec §7): a kind
plus the source range it refers to. -/
structure EvaluationError where
  kind : EvaluationErrorKind
  range : Range

/-- A Rust panic reachable from the embedded code (an `unwrap`, an
out-of-bounds `remove`, or integer division by zero), plus exhaustion of
the step fuel that drives the embedded recursion. -/
inductive VmPanic where
  | outOfFuel
  | unwrapFailed
  | divideByZero
  | poppedEmptyScope
deriving DecidableEq, Repr

abbrev EvalM := Except VmPanic

/-- `EvaluatorState` of `evaluator.rs`: the scope manager plus the
accumulated error list (the `RwLock` wrapper has no semantic content in
the single-threaded evaluation the spec describes). -/
structure EvalState where
  scope : ScopeManager
  errors : List EvaluationError

/-- `Evaluator::add_error`. -/
def EvalState.add_error (st : EvalState) (e : EvaluationError) : EvalState :=
  { st with errors := st.errors ++ [e] }

/-- Replace the scope manager of a state. -/
def EvalState.withScope (st : EvalState) (sc : ScopeManager) : EvalState :=
  { st with scope := sc }

/-- 2^64: the modulus of the raw `u64` integer representation. -/
def u64Size : Nat := 18446744073709551616

/-- 2^32: the exponent of `u64::pow` is truncated to 32 bits. -/
def u32Size : Nat := 4294967296

/-- Wrapping `u64` addition. -/
def wrapAdd (a b : Nat) : Nat := (a + b) % u64Size

/-- Wrapping `u64` subtraction. -/
def wrapSub (a b : Nat) : Nat := (((a : Int) - (b : Int)).emod (u64Size : Int)).toNat

/-- Wrapping `u64` multiplication. -/
def wrapMul (a b : Nat) : Nat := (a * b) % u64Size

/-- `u64::pow` with the exponent truncated from the right operand's bits
(`as u32`), wrapping. -/
def wrapPow (a b : Nat) : Nat := (a ^ (b % u32Size)) % u64Size

/-- The float operations of the underlying `f64` representation.  The
sources for them are not in the repository; the evaluator is
parameterised over them, so every theorem below holds for any
implementation. -/
structure FloatOps where
  fadd : Nat → Nat → Nat
  fsub : Nat → Nat → Nat
  fmul : Nat → Nat → Nat
  fdiv : Nat → Nat → Nat
  fpow : Nat → Nat → Nat

/-- A throwaway instantiation of `FloatOps` used to evaluate concrete
integer-only programs. -/
def zeroFloatOps : FloatOps := ⟨fun _ _ => 0, fun _ _ => 0, fun _ _ => 0, fun _ _ => 0, fun _ _ => 0⟩

/-- The generic arithmetic table at the bottom of
`Evaluator::evaluate_binary_expression`: dispatch on the operand type
pair, then on the operator.  Division by zero reaches the Rust division
panic, embedded as `Except.error .divideByZero`. -/
def binOpValues (F : FloatOps) (op : Operator) (l r : ConstValue) : EvalM ConstValue :=
  match l.ty, r.ty with
  | .coercibleInteger, .coercibleInteger =>
      match op with
      | .plus => .ok (ConstValue.cinteger (wrapAdd l.kind.as_integer r.kind.as_integer))
      | .minus => .ok (ConstValue.cinteger (wrapSub l.kind.as_integer r.kind.as_integer))
      | .multiply => .ok (ConstValue.cinteger (wrapMul l.kind.as_integer r.kind.as_integer))
      | .divide =>
          if r.kind.as_integer = 0 then .error .divideByZero
          else .ok (ConstValue.cinteger (l.kind.as_integer / r.kind.as_integer))
      | .exponent => .ok (ConstValue.cinteger (wrapPow l.kind.as_integer r.kind.as_integer))
      | _ => .ok ConstValue.empty
  | .integer width signed, .coercibleInteger | .coercibleInteger, .integer width signed =>
      match op with
      | .plus => .ok (ConstValue.integer (wrapAdd l.kind.as_integer r.kind.as_integer) width signed)
      | .minus => .ok (ConstValue.integer (wrapSub l.kind.as_integer r.kind.as_integer) width signed)
      | .multiply =>
          .ok (ConstValue.integer (wrapMul l.kind.as_integer r.kind.as_integer) width signed)
      | .divide =>
          if r.kind.as_integer = 0 then .error .divideByZero
          else .ok (ConstValue.integer (l.kind.as_integer / r.kind.as_integer) width signed)
      | .exponent =>
          .ok (ConstValue.integer (wrapPow l.kind.as_integer r.kind.as_integer) width signed)
      | _ => .ok ConstValue.empty
  | .coercibleFloat, .coercibleFloat =>
      match op with
      | .plus => .ok (ConstValue.cfloat (F.fadd l.kind.as_float r.kind.as_float))
      | .minus => .ok (ConstValue.cfloat (F.fsub l.kind.as_float r.kind.as_float))
      | .multiply => .ok (ConstValue.cfloat (F.fmul l.kind.as_float r.kind.as_float))
      | .divide => .ok (ConstValue.cfloat (F.fdiv l.kind.as_float r.kind.as_float))
      | .exponent => .ok (ConstValue.cfloat (F.fpow l.kind.as_float r.kind.as_float))
      | _ => .ok ConstValue.empty
  | .float width, .coercibleFloat | .coercibleFloat, .float width =>
      match op with
      | .plus => .ok (ConstValue.float (F.fadd l.kind.as_float r.kind.as_float) width)
      | .minus => .ok (ConstValue.float (F.fsub l.kind.as_float r.kind.as_float) width)
      | .multiply => .ok (ConstValue.float (F.fmul l.kind.as_float r.kind.as_float) width)
      | .divide => .ok (ConstValue.float (F.fdiv l.kind.as_float r.kind.as_float) width)
      | .exponent => .ok (ConstValue.float (F.fpow l.kind.as_float r.kind.as_float) width)
      | _ => .ok ConstValue.empty
  | _, _ => .ok ConstValue.empty

/-- The result type of the expression evaluator at a given fuel. -/
abbrev EFun := EvalState → Expression → EvalM (ConstValue × EvalState)

/-- The result type of the statement evaluator at a given fuel. -/
abbrev SFun := EvalState → Statement → EvalM (ConstValue × EvalState)

/-- `Evaluator::evaluate_type`. -/
def evaluateType (st : EvalState) : AstType → Ty
  | .integer width signed => .integer width signed
  | .float width => .float width
  | .ident name =>
      match st.scope.find_symbol name with
      | some sym => .symbol sym
      | none => .empty

/-- `Evaluator::evaluate_params`: keep the entries having both a name and
a type annotation, building the ordered map in iteration order
(`LinkedHashMap::from_iter`). -/
def evaluateParams (st : EvalState) : List Param → TyEnv
  | [] => .nil
  | p :: rest =>
      match p.name, p.ty with
      | some name, some ty => TyEnv.insert name (evaluateType st ty) (evaluateParams st rest)
      | _, _ => evaluateParams st rest

/-- The argument-binding loop of the `FunctionCall` arm: walk the zipped
(argument, parameter) pairs in positional order; on the first pair whose
types differ record a `TypeMismatch` against the `i`-th raw argument's
range and stop with `false` (the early `return`), otherwise bind the
parameter name in the active scope.  The `nth(i).unwrap()` of the
sources is embedded as a panic on a missing index. -/
def bindArgs (raws : List Expression) :
    EvalState → List ConstValue → TyEnv → Nat → EvalM (EvalState × Bool)
  | st, [], _, _ => .ok (st, true)
  | st, _ :: _, .nil, _ => .ok (st, true)
  | st, arg :: args, .cons name ty ps, i =>
      if arg.ty = ty then
        bindArgs raws (st.withScope (st.scope.update_value name (.constValue arg)).1) args ps (i + 1)
      else
        match raws[i]? with
        | some rexp =>
            .ok (st.add_error ⟨.typeMismatch arg.ty ty, rexp.get_range⟩, false)
        | none => .error .unwrapFailed

/-- The return-value collection of the `FunctionCall` arm: for each
declared return parameter, resolve its name in the current scope, using
the default for its type when unbound and empty when bound to a
non-value entry. -/
def collectReturns (st : EvalState) : TyEnv → CvEnv
  | .nil => .nil
  | .cons name ty rest =>
      let vl :=
        match st.scope.find_symbol name with
        | some sym =>
            match (st.scope.nodeAt sym).value with
            | .constValue cv => cv
            | _ => ConstValue.empty
        | none => ConstValue.default_for ty
      .cons name vl (collectReturns st rest)

/-- The call protocol of the `FunctionCall` arm of
`Evaluator::evaluate_expression`, entered after the callee and the
arguments have been evaluated: push the captured scope, bind the
arguments, run the body, collect the returns, pop.  Any callee value not
carrying both a function type and a function kind yields empty
silently. -/
def evalCall (recS : SFun) (st : EvalState) (cv : ConstValue) (vals : List ConstValue)
    (raws : List Expression) : EvalM (ConstValue × EvalState) :=
  match cv with
  | .mk (.function ptypes rptypes) (.function body rf) => do
      let (st, bound) ← bindArgs raws (st.withScope (st.scope.push_scope rf)) vals ptypes 0
      if bound then do
        let (_, st) ← recS st body
        let rvs := collectReturns st rptypes
        let value := ConstValue.record_instance rvs
        match st.scope.pop_scope with
        | some (_, sc) => .ok (value, st.withScope sc)
        | none => .error .poppedEmptyScope
      else
        .ok (ConstValue.empty, st)
  | _ => .ok (ConstValue.empty, st)

/-- The generic tail of `Evaluator::evaluate_binary_expression`: evaluate
both operands and dispatch on their type pair. -/
def evalArith (F : FloatOps) (recE : EFun) (st : EvalState) (left : Expression)
    (op : Operator) (right : Expression) : EvalM (ConstValue × EvalState) := do
  let (lv, st) ← recE st left
  let (rv, st) ← recE st right
  let v ← binOpValues F op lv rv
  .ok (v, st)

/-- `Evaluator::evaluate_binary_expression`: the special-cased
assignment and member-access shapes, falling through to the generic
arithmetic tail (which re-evaluates the left operand in the dot case). -/
def evalBinary (F : FloatOps) (recE : EFun) (st : EvalState) (left : Expression)
    (op : Operator) (right : Expression) : EvalM (ConstValue × EvalState) :=
  match op, left with
  | .equals, .ident name _ => do
      let (rv, st) ← recE st right
      .ok (rv, st.withScope (st.scope.update_value name (.constValue rv)).1)
  | .equals, .binary (some dleft) (some .dot) (some dright) _ => do
      let (rv, st) ← recE st right
      let (sc, updated) := st.scope.follow_member_access_mut dleft dright (fun _ => rv)
      if updated then .ok (rv, st.withScope sc)
      else .ok (ConstValue.empty, st.withScope sc)
  | .dot, _ => do
      let (lv, st1) ← recE st left
      match lv.kind, right with
      | .recordInstance members, .ident member _ =>
          match members.lookup member with
          | some v => .ok (v, st1)
          | none => evalArith F recE st1 left op right
      | _, _ => evalArith F recE st1 left op right
  | _, _ => evalArith F recE st left op right

/-- `Evaluator::evaluate_args`: evaluate each argument expression in
order. -/
def evalArgsList (recE : EFun) : EvalState → List Expression →
    EvalM (List ConstValue × EvalState)
  | st, [] => .ok ([], st)
  | st, e :: rest => do
      let (v, st) ← recE st e
      let (vs, st) ← evalArgsList recE st rest
      .ok (v :: vs, st)

/-- The multi-item branch of the `Statement::List` arm: evaluate every
item for side effects and collect the results in order. -/
def evalStmtSeq (recS : SFun) : EvalState → List Statement →
    EvalM (List ConstValue × EvalState)
  | st, [] => .ok ([], st)
  | st, s :: rest => do
      let (v, st) ← recS st s
      let (vs, st) ← evalStmtSeq recS st rest
      .ok (v :: vs, st)

/-- `ConstValue::tuple(values)` (modelled from the spec §3: tuples share
the ordered name-to-value kind of record instances, keyed by position). -/
def CvEnv.ofIndexed (i : Nat) : List ConstValue → CvEnv
  | [] => .nil
  | v :: rest => .cons (toString i) v (ofIndexed (i + 1) rest)

/-- `ConstValue::tuple(values)`. -/
def ConstValue.tuple (values : List ConstValue) : ConstValue :=
  ConstValue.record_instance (CvEnv.ofIndexed 0 values)

/-- One level of `Evaluator::evaluate_expression`, with the recursive
occurrences of `evaluate_statement` / `evaluate_expression` abstracted
as `recS` / `recE`. -/
def mkEvalExpr (F : FloatOps) (recS : SFun) (recE : EFun) : EFun := fun st e =>
  match e with
  | .integer v _ => .ok (ConstValue.cinteger v, st)
  | .floatLit v _ => .ok (ConstValue.cfloat v, st)
  | .ident name _ =>
      match st.scope.find_symbol name with
      | some sym =>
          match (st.scope.nodeAt sym).value with
          | .constValue cv => .ok (cv, st)
          | _ => .ok (ConstValue.empty, st)
      | none => .ok (ConstValue.empty, st)
  | .binary (some left) (some op) (some right) _ => evalBinary F recE st left op right
  | .functionCall callee args _ => do
      let (cv, st) ← recE st callee
      let (vals, st) ← evalArgsList recE st args
      evalCall recS st cv vals args
  | _ => .ok (ConstValue.empty, st)

/-- One level of `Evaluator::evaluate_statement`, with the recursive
occurrences abstracted as `recS` / `recE`. -/
def mkEvalStmt (recS : SFun) (recE : EFun) : SFun := fun st s =>
  match s with
  | .decleration id _ _ (some (.record params _)) =>
      let members := evaluateParams st params
      .ok (ConstValue.empty, st.withScope (st.scope.update_value id (.record id members)).1)
  | .decleration id _ _ (some (.functionLit params rets (some body) _)) =>
      let parameters := evaluateParams st params
      let returnParameters := evaluateParams st rets
      let st := st.withScope (st.scope.update_value id (.constValue ConstValue.empty)).1
      match st.scope.find_symbol id with
      | some sym =>
          .ok (ConstValue.empty,
            st.withScope
              (st.scope.update_value id
                (.constValue (ConstValue.func body parameters returnParameters sym))).1)
      | none => .error .unwrapFailed
  | .decleration id _ _ (some expr) => do
      let (v, st) ← recE st expr
      .ok (ConstValue.empty, st.withScope (st.scope.update_value id (.constValue v)).1)
  | .expression e => recE st e
  | .list [s1] => recS st s1
  | .list stmts => do
      let (vs, st) ← evalStmtSeq recS st stmts
      .ok (ConstValue.tuple vs, st)
  | _ => .ok (ConstValue.empty, st)

/-- The fuel-indexed family of evaluators: at fuel `n + 1`, one source
level of `evaluate_expression` / `evaluate_statement` whose recursive
calls run at fuel `n`; at fuel `0`, the embedded recursion is out of
fuel.  The Rust functions are the limit of this family: any terminating
source evaluation is reproduced exactly at every sufficiently large
fuel. -/
def evalAt (F : FloatOps) : Nat → EFun × SFun
  | 0 => (fun _ _ => .error .outOfFuel, fun _ _ => .error .outOfFuel)
  | n + 1 =>
      ((fun st e => mkEvalExpr F (evalAt F n).2 (evalAt F n).1 st e),
       (fun st s => mkEvalStmt (evalAt F n).2 (evalAt F n).1 st s))

/-- `Evaluator::evaluate_expression` at fuel `n`. -/
def evalExpr (F : FloatOps) (n : Nat) : EFun := (evalAt F n).1

/-- `Evaluator::evaluate_statement` at fuel `n`. -/
def evalStmt (F : FloatOps) (n : Nat) : SFun := (evalAt F n).2

/-- `Evaluator::evaluate`: evaluate the module's statements in source
order, collecting one value per statement. -/
def evaluate (F : FloatOps) (n : Nat) : EvalState → List Statement →
    EvalM (List ConstValue × EvalState)
  | st, [] => .ok ([], st)
  | st, s :: rest => do
      let (v, st) ← evalStmt F n st s
      let (vs, st) ← evaluate F n st rest
      .ok (v :: vs, st)

/-! ## Concrete programs, states, and statement helpers used by the theorems -/

/-- A placeholder source range for concrete programs. -/
def rng0 : Range := ⟨0, 0⟩

/-- The literal expression `1 + 2`. -/
def onePlusTwoExpr : Expression :=
  .binary (some (.integer 1 rng0)) (some .plus) (some (.integer 2 rng0)) rng0

/-- The literal expression `1 / 0`. -/
def oneDivZeroExpr : Expression :=
  .binary (some (.integer 1 rng0)) (some .divide) (some (.integer 0 rng0)) rng0

/-- The raw `u64` operation an arithmetic operator denotes on integer
bits (division by zero is the Rust panic).  Used to state that the
arithmetic table applies the operation to the raw bits and only differs
in the tag of the result. -/
def intOpRaw : Operator → Nat → Nat → EvalM Nat
  | .plus, a, b => .ok (wrapAdd a b)
  | .minus, a, b => .ok (wrapSub a b)
  | .multiply, a, b => .ok (wrapMul a b)
  | .divide, a, b => if b = 0 then .error .divideByZero else .ok (a / b)
  | .exponent, a, b => .ok (wrapPow a b)
  | _, _, _ => .ok 0

/-- The raw `f64` operation an arithmetic operator denotes on float
bits. -/
def floatOpRaw (F : FloatOps) : Operator → Nat → Nat → Nat
  | .plus => F.fadd
  | .minus => F.fsub
  | .multiply => F.fmul
  | .divide => F.fdiv
  | .exponent => F.fpow
  | _ => fun _ _ => 0

/-- The five arithmetic operators of the generic table. -/
def arithOps : List Operator := [.plus, .minus, .multiply, .divide, .exponent]

/-- The expression `a + 2`. -/
def aPlusTwoExpr : Expression :=
  .binary (some (.ident "a" rng0)) (some .plus) (some (.integer 2 rng0)) rng0

/-- The expression `2 + a`. -/
def twoPlusAExpr : Expression :=
  .binary (some (.integer 2 rng0)) (some .plus) (some (.ident "a" rng0)) rng0

/-- A state binding `a` to `Integer{32,signed} 5` under the root. -/
def stA : EvalState :=
  ⟨⟨0, [0], [⟨.module, [("a", 1)]⟩, ⟨.constValue (ConstValue.integer 5 32 true), []⟩]⟩, []⟩

/-- The concrete manager refuting C4's literal phrasing: the root (node
`0`) is active and its children bind `x` to node `1`. -/
def smC4 : ScopeManager :=
  ⟨0, [0], [⟨.module, [("x", 1)]⟩, ⟨.constValue (ConstValue.cinteger 5), []⟩]⟩

/-- The left/right shape `ident` (first recognized shape of
`follow_member_access_mut`). -/
def isIdentExpr : Expression → Bool
  | .ident _ _ => true
  | _ => false

/-- The left shape "binary expression whose operator is `.` with both
operands present" (second recognized shape of
`follow_member_access_mut`). -/
def isDotBinaryExpr : Expression → Bool
  | .binary (some _) (some .dot) (some _) _ => true
  | _ => false

/-- The concrete manager refuting C6: `p` is bound to a record instance
whose only member is `x`. -/
def smC6 : ScopeManager :=
  ⟨0, [0],
    [⟨.module, [("p", 1)]⟩,
     ⟨.constValue (ConstValue.record_instance (.cons "x" (ConstValue.cinteger 1) .nil)), []⟩]⟩

/-- A state holding only the root scope node. -/
def stRoot : EvalState := ⟨⟨0, [0], [Scope.new .module]⟩, []⟩

/-- The body `out = c` of the callee `g` in the frame-isolation
scenario. -/
def gBody : Statement :=
  .expression (.binary (some (.ident "out" rng0)) (some .equals) (some (.ident "c" rng0)) rng0)

/-- The function value of `g := () -> (out: i32) { out = c }`, captured
at its own binding node `2`. -/
def gVal : ConstValue := ConstValue.func gBody .nil (.cons "out" (.integer 32 true) .nil) 2

/-- The frame-isolation scenario: the root (node `0`) binds `g` to node
`2`; the active caller frame (node `1`) binds `c` (a caller-only name)
to node `3`, which holds `CoercibleInteger 5`. -/
def stC2 : EvalState :=
  ⟨⟨0, [0, 1],
    [⟨.module, [("g", 2)]⟩,
     ⟨.constValue ConstValue.empty, [("c", 3)]⟩,
     ⟨.constValue gVal, []⟩,
     ⟨.constValue (ConstValue.cinteger 5), []⟩]⟩, []⟩

/-- The call `g()`. -/
def callGExpr : Expression := .functionCall (.ident "g" rng0) [] rng0

/-- The state after evaluating `g()` in `stC2`: `out` was inserted as
node `4` under the captured frame `2`, holding the *caller's* value 5
that `c` resolved to inside the body. -/
def stC2After : EvalState :=
  ⟨⟨0, [0, 1],
    [⟨.module, [("g", 2)]⟩,
     ⟨.constValue ConstValue.empty, [("c", 3)]⟩,
     ⟨.constValue gVal, [("out", 4)]⟩,
     ⟨.constValue (ConstValue.cinteger 5), []⟩,
     ⟨.constValue (ConstValue.cinteger 5), []⟩]⟩, []⟩

/-- A trivial statement evaluator used to instantiate recursion
parameters in witnesses. -/
def constStmtEval : SFun := fun st _ => .ok (ConstValue.empty, st)

/-- A trivial expression evaluator used to instantiate recursion
parameters in witnesses. -/
def constExprEval : EFun := fun st _ => .ok (ConstValue.empty, st)

/-- The operand type pairs the generic arithmetic table supports; every
other pair falls to the silent-empty default arm. -/
def supportedPair : Ty → Ty → Bool
  | .coercibleInteger, .coercibleInteger => true
  | .integer _ _, .coercibleInteger => true
  | .coercibleInteger, .integer _ _ => true
  | .coercibleFloat, .coercibleFloat => true
  | .float _, .coercibleFloat => true
  | .coercibleFloat, .float _ => true
  | _, _ => false

/-- The error list of `st2` extends the error list of `st1`: errors are
only ever appended during evaluation. -/
def ErrExt (st1 st2 : EvalState) : Prop := ∃ t, st2.errors = st1.errors ++ t

/-! ## Basic unfolding lemmas -/

@[simp] theorem ConstValue.ty_mk (t : Ty) (k : ConstValueKind) : (ConstValue.mk t k).ty = t := rfl

@[simp] theorem ConstValue.kind_mk (t : Ty) (k : ConstValueKind) :
    (ConstValue.mk t k).kind = k := rfl

@[simp] theorem EvalM.bind_ok {α β : Type} (a : α) (f : α → EvalM β) :
    (Except.ok a : EvalM α) >>= f = f a := rfl

@[simp] theorem EvalM.bind_error {α β : Type} (p : VmPanic) (f : α → EvalM β) :
    (Except.error p : EvalM α) >>= f = .error p := rfl

theorem evalExpr_succ (F : FloatOps) (n : Nat) :
    evalExpr F (n + 1) = mkEvalExpr F (evalStmt F n) (evalExpr F n) := rfl

theorem evalStmt_succ (F : FloatOps) (n : Nat) :
    evalStmt F (n + 1) = mkEvalStmt (evalStmt F n) (evalExpr F n) := rfl

/-! ## C9: `1 + 2` is pure and deterministic -/

/-- **C9.**  Evaluating the pure literal expression `1 + 2` yields
`CoercibleInteger 3`, deterministically, and returns the state it was
given unchanged — so evaluating it twice in succession yields the same
value both times with no scope mutation between or after the
evaluations. -/
theorem claim9_one_plus_two_pure (F : FloatOps) (st : EvalState) :
    evalExpr F 2 st onePlusTwoExpr = .ok (ConstValue.cinteger 3, st)
    ∧ (do
        let (v1, st1) ← evalExpr F 2 st onePlusTwoExpr
        let (v2, st2) ← evalExpr F 2 st1 onePlusTwoExpr
        (pure (v1, v2, st2) : EvalM _))
      = .ok (ConstValue.cinteger 3, ConstValue.cinteger 3, st) :=
  ⟨rfl, rfl⟩

/-! ## C8: integer division truncates and has no divide-by-zero guard -/

/-- **C8.**  Integer division of two numeric operands — both coercible,
or a sized/coercible integer pair in either order — computes the
truncating quotient on the raw unsigned bits (`Nat` division, i.e.
truncation toward zero for the nonnegative raw representation).  There
is no divide-by-zero guard: a zero right operand reaches the error
branch of the embedded division (the Rust division panic) instead of
yielding a value, both at the arithmetic table and for the whole
expression `1 / 0`. -/
theorem claim8_division_truncates_unguarded (F : FloatOps) :
    (∀ a b : Nat, b ≠ 0 →
      binOpValues F .divide (.mk .coercibleInteger (.integer a))
          (.mk .coercibleInteger (.integer b))
        = .ok (ConstValue.cinteger (a / b))
      ∧ ∀ w s,
          binOpValues F .divide (.mk (.integer w s) (.integer a))
              (.mk .coercibleInteger (.integer b))
            = .ok (ConstValue.integer (a / b) w s)
          ∧ binOpValues F .divide (.mk .coercibleInteger (.integer a))
              (.mk (.integer w s) (.integer b))
            = .ok (ConstValue.integer (a / b) w s))
    ∧ (∀ a : Nat,
        binOpValues F .divide (.mk .coercibleInteger (.integer a))
          (.mk .coercibleInteger (.integer 0)) = .error .divideByZero)
    ∧ (∀ st : EvalState, evalExpr F 2 st oneDivZeroExpr = .error .divideByZero) := by
  refine ⟨fun a b hb => ?_, fun a => rfl, fun st => rfl⟩
  refine ⟨?_, fun w s => ⟨?_, ?_⟩⟩ <;>
    simp [binOpValues, ConstValueKind.as_integer, hb, ConstValue.cinteger, ConstValue.integer]

/-- Witness for C8 at `a = 7`, `b = 2`: the hypothesis `b ≠ 0` is
discharged concretely. -/
theorem claim8_division_truncates_unguarded_witness :
    binOpValues zeroFloatOps .divide (.mk .coercibleInteger (.integer 7))
        (.mk .coercibleInteger (.integer 2))
      = .ok (ConstValue.cinteger 3) :=
  ((claim8_division_truncates_unguarded zeroFloatOps).1 7 2 (by decide)).1

/-! ## C3: coercible operands adopt the sized operand's tag -/

/-- **C3.**  For every arithmetic operator in `+ - * / ^`: combining a
sized operand with a coercible operand of the same numeric family, in
either order, yields the raw-bits operation re-tagged with the sized
operand's width (and signedness for integers); two same-kind coercibles
stay coercible.  In particular, with `a` bound to `Integer{32,signed} 5`,
both `a + 2` and `2 + a` evaluate to `Integer{32,signed} 7` and leave
the state unchanged. -/
theorem claim3_coercible_adopts_sized_tag (F : FloatOps) :
    (∀ op ∈ arithOps,
      (∀ w s a b,
          binOpValues F op (.mk (.integer w s) (.integer a)) (.mk .coercibleInteger (.integer b))
            = (intOpRaw op a b).map (fun n => ConstValue.integer n w s)
          ∧ binOpValues F op (.mk .coercibleInteger (.integer a)) (.mk (.integer w s) (.integer b))
            = (intOpRaw op a b).map (fun n => ConstValue.integer n w s))
      ∧ (∀ a b,
          binOpValues F op (.mk .coercibleInteger (.integer a)) (.mk .coercibleInteger (.integer b))
            = (intOpRaw op a b).map ConstValue.cinteger)
      ∧ (∀ w a b,
          binOpValues F op (.mk (.float w) (.floatBits a)) (.mk .coercibleFloat (.floatBits b))
            = .ok (ConstValue.float (floatOpRaw F op a b) w)
          ∧ binOpValues F op (.mk .coercibleFloat (.floatBits a)) (.mk (.float w) (.floatBits b))
            = .ok (ConstValue.float (floatOpRaw F op a b) w))
      ∧ (∀ a b,
          binOpValues F op (.mk .coercibleFloat (.floatBits a)) (.mk .coercibleFloat (.floatBits b))
            = .ok (ConstValue.cfloat (floatOpRaw F op a b))))
    ∧ (∀ (st : EvalState) (ad : Nat),
        st.scope.find_symbol "a" = some ad →
        (st.scope.nodeAt ad).value = .constValue (ConstValue.integer 5 32 true) →
        evalExpr F 2 st aPlusTwoExpr = .ok (ConstValue.integer 7 32 true, st)
        ∧ evalExpr F 2 st twoPlusAExpr = .ok (ConstValue.integer 7 32 true, st)) := by
  constructor
  · intro op hop
    fin_cases hop <;>
      refine ⟨fun w s a b => ⟨?_, ?_⟩, fun a b => ?_, fun w a b => ⟨?_, ?_⟩, fun a b => ?_⟩ <;>
        simp [binOpValues, intOpRaw, floatOpRaw, ConstValueKind.as_integer,
          ConstValueKind.as_float, ConstValue.integer, ConstValue.cinteger, ConstValue.float,
          ConstValue.cfloat, Except.map, apply_ite] <;>
        (try (split <;> simp [Except.map]))
  · intro st ad h hval
    have e2 : evalExpr F 2 = mkEvalExpr F (evalStmt F 1) (evalExpr F 1) := rfl
    have e1 : evalExpr F 1 = mkEvalExpr F (evalStmt F 0) (evalExpr F 0) := rfl
    constructor <;>
      · simp only [e2, e1, aPlusTwoExpr, twoPlusAExpr, mkEvalExpr, evalBinary, evalArith,
          EvalM.bind_ok]
        simp only [h, hval]
        rfl

/-- Witness for C3: the operator hypothesis and the binding hypotheses
are discharged at `+` and at the concrete state `stA`. -/
theorem claim3_coercible_adopts_sized_tag_witness :
    binOpValues zeroFloatOps .plus (.mk (.integer 32 true) (.integer 5))
        (.mk .coercibleInteger (.integer 2))
      = (intOpRaw .plus 5 2).map (fun n => ConstValue.integer n 32 true)
    ∧ evalExpr zeroFloatOps 2 stA aPlusTwoExpr = .ok (ConstValue.integer 7 32 true, stA)
    ∧ evalExpr zeroFloatOps 2 stA twoPlusAExpr = .ok (ConstValue.integer 7 32 true, stA) := by
  refine ⟨(((claim3_coercible_adopts_sized_tag zeroFloatOps).1 .plus (by decide)).1 32 true 5 2).1,
    ?_, ?_⟩
  · exact ((claim3_coercible_adopts_sized_tag zeroFloatOps).2 stA 1 rfl rfl).1
  · exact ((claim3_coercible_adopts_sized_tag zeroFloatOps).2 stA 1 rfl rfl).2

/-! ## Scope-graph lemmas -/

theorem findSome?_eq_none_iff {α β : Type} (f : α → Option β) :
    ∀ l : List α, l.findSome? f = none ↔ ∀ a ∈ l, f a = none := by
  intro l
  induction l with
  | nil => simp [List.findSome?]
  | cons x xs ih => cases hfx : f x <;> simp [List.findSome?, hfx, ih]

theorem findSome?_eq_some_iff {α β : Type} (f : α → Option β) :
    ∀ (l : List α) (c : β),
      l.findSome? f = some c ↔
        ∃ (i : Nat) (a : α), l[i]? = some a ∧ f a = some c ∧
          ∀ (j : Nat) (b : α), j < i → l[j]? = some b → f b = none := by
  intro l
  induction l with
  | nil => intro c; simp [List.findSome?]
  | cons x xs ih =>
    intro c
    cases hfx : f x with
    | some v =>
      simp only [List.findSome?, hfx]
      constructor
      · rintro h
        injection h with h
        exact ⟨0, x, by simp, by rw [hfx, h], fun j b hj => absurd hj (Nat.not_lt_zero j)⟩
      · rintro ⟨i, a, hia, hfa, hmin⟩
        cases i with
        | zero =>
            rw [List.getElem?_cons_zero] at hia
            injection hia with hia
            subst hia
            rw [hfx] at hfa
            exact hfa
        | succ n =>
            have h0 := hmin 0 x (Nat.succ_pos n) (by simp)
            rw [hfx] at h0
            exact absurd h0 (by simp)
    | none =>
      simp only [List.findSome?, hfx, ih]
      constructor
      · rintro ⟨i, a, hia, hfa, hmin⟩
        refine ⟨i + 1, a, by simpa using hia, hfa, ?_⟩
        intro j b hj hjb
        cases j with
        | zero =>
            rw [List.getElem?_cons_zero] at hjb
            injection hjb with hjb
            subst hjb
            exact hfx
        | succ k =>
            rw [List.getElem?_cons_succ] at hjb
            exact hmin k b (Nat.lt_of_succ_lt_succ hj) hjb
      · rintro ⟨i, a, hia, hfa, hmin⟩
        cases i with
        | zero =>
            rw [List.getElem?_cons_zero] at hia
            injection hia with hia
            subst hia
            rw [hfx] at hfa
            exact absurd hfa (by simp)
        | succ n =>
            rw [List.getElem?_cons_succ] at hia
            exact ⟨n, a, hia, hfa, fun j b hj hjb =>
              hmin (j + 1) b (Nat.succ_lt_succ hj) (by simpa using hjb)⟩

theorem findSome?_congr {α β : Type} (f g : α → Option β) :
    ∀ l : List α, (∀ a ∈ l, f a = g a) → l.findSome? f = l.findSome? g := by
  intro l
  induction l with
  | nil => intro _; rfl
  | cons x xs ih =>
    intro h
    have hx := h x (by simp)
    simp only [List.findSome?, hx]
    cases g x with
    | some v => rfl
    | none => exact ih fun a ha => h a (by simp [ha])

theorem lookup_insertChild_self (k : String) (a : Nat) :
    ∀ m : List (String × Nat), (insertChild k a m).lookup k = some a := by
  intro m
  induction m with
  | nil => simp [insertChild, List.lookup]
  | cons p rest ih =>
    obtain ⟨k2, a2⟩ := p
    by_cases h : k2 = k
    · subst h
      simp [insertChild, List.lookup]
    · have hb : (k == k2) = false := beq_eq_false_iff_ne.mpr fun e => h e.symm
      simp [insertChild, h, List.lookup, hb, ih]

theorem lookup_insertChild_ne (k : String) (a : Nat) (k' : String) (hne : k' ≠ k) :
    ∀ m : List (String × Nat), (insertChild k a m).lookup k' = m.lookup k' := by
  intro m
  have hbk : (k' == k) = false := beq_eq_false_iff_ne.mpr hne
  induction m with
  | nil => simp [insertChild, List.lookup, hbk]
  | cons p rest ih =>
    obtain ⟨k2, a2⟩ := p
    by_cases h : k2 = k
    · subst h
      simp [insertChild, List.lookup, hbk]
    · simp only [insertChild, if_neg h, List.lookup]
      cases hb : k' == k2 <;> simp [hb, ih]

namespace ScopeManager

theorem nodeAt_setNode_self (sm : ScopeManager) (a : Nat) (n : Scope)
    (h : a < sm.nodes.length) : (sm.setNode a n).nodeAt a = n := by
  simp [nodeAt, setNode, List.getD_eq_getElem?_getD, List.getElem?_set_self h]

theorem nodeAt_setNode_ne (sm : ScopeManager) (a b : Nat) (n : Scope) (h : a ≠ b) :
    (sm.setNode a n).nodeAt b = sm.nodeAt b := by
  simp [nodeAt, setNode, List.getD_eq_getElem?_getD, List.getElem?_set_ne h]

theorem nodeAt_appendNode_self (sm : ScopeManager) (n : Scope) :
    ({ sm with nodes := sm.nodes ++ [n] } : ScopeManager).nodeAt sm.nodes.length = n := by
  simp [nodeAt, List.getD_eq_getElem?_getD, List.getElem?_concat_length]

theorem nodeAt_appendNode_ne (sm : ScopeManager) (n : Scope) (b : Nat)
    (h : b ≠ sm.nodes.length) :
    ({ sm with nodes := sm.nodes ++ [n] } : ScopeManager).nodeAt b = sm.nodeAt b := by
  by_cases hb : b < sm.nodes.length
  · simp [nodeAt, List.getD_eq_getElem?_getD, List.getElem?_append_left hb]
  · have h1 : sm.nodes.length ≤ b := Nat.le_of_not_lt hb
    have h2 : sm.nodes.length + 1 ≤ b := by omega
    have e1 : (sm.nodes ++ [n])[b]? = none := by
      apply List.getElem?_eq_none
      simpa using h2
    have e2 : sm.nodes[b]? = none := List.getElem?_eq_none h1
    simp [nodeAt, List.getD_eq_getElem?_getD, e1, e2]

theorem find_symbol_congr (sm sm' : ScopeManager) (name : String)
    (hstack : sm'.current_scope = sm.current_scope)
    (hch : ∀ a ∈ sm.current_scope, (sm'.nodeAt a).children = (sm.nodeAt a).children) :
    sm'.find_symbol name = sm.find_symbol name := by
  unfold find_symbol
  rw [hstack]
  exact findSome?_congr _ _ _ fun a ha => by rw [hch a (by simpa using ha)]

theorem update_value_current_scope (sm : ScopeManager) (name : String) (v : ScopeValue) :
    (sm.update_value name v).1.current_scope = sm.current_scope := by
  unfold update_value
  cases sm.find_symbol name with
  | some a => rfl
  | none => cases sm.current_scope.getLast? with
    | some scp => rfl
    | none => rfl

theorem nodeAt_setNode_out (sm : ScopeManager) (a b : Nat) (n : Scope)
    (h : ¬ b < sm.nodes.length) : (sm.setNode a n).nodeAt b = sm.nodeAt b := by
  have h1 : (sm.nodes.set a n)[b]? = none := List.getElem?_eq_none (by simpa using Nat.le_of_not_lt h)
  have h2 : sm.nodes[b]? = none := List.getElem?_eq_none (Nat.le_of_not_lt h)
  simp [nodeAt, setNode, List.getD_eq_getElem?_getD, h1, h2]

/-- Overwriting only the value of a node keeps every node's child map. -/
theorem children_setNode_value (sm : ScopeManager) (a : Nat) (v : ScopeValue) (b : Nat) :
    ((sm.setNode a { sm.nodeAt a with value := v }).nodeAt b).children
      = (sm.nodeAt b).children := by
  by_cases hb : b = a
  · subst hb
    by_cases hlt : b < sm.nodes.length
    · rw [nodeAt_setNode_self _ _ _ hlt]
    · rw [nodeAt_setNode_out _ _ _ _ hlt]
  · rw [nodeAt_setNode_ne _ _ _ _ (Ne.symm hb)]

/-- Overwriting only the value of a node does not change resolution. -/
theorem find_symbol_setNode_value (sm : ScopeManager) (a : Nat) (v : ScopeValue)
    (name : String) :
    (sm.setNode a { sm.nodeAt a with value := v }).find_symbol name = sm.find_symbol name :=
  find_symbol_congr sm _ name rfl (fun b _ => children_setNode_value sm a v b)

theorem nodeAt_push (sm : ScopeManager) (rf a : Nat) :
    (sm.push_scope rf).nodeAt a = sm.nodeAt a := rfl

/-- Resolution through a pushed frame whose children lack the name falls
back to exactly what the caller's stack resolved. -/
theorem find_symbol_push_notin (sm : ScopeManager) (rf : Nat) (name : String)
    (h : (sm.nodeAt rf).children.lookup name = none) :
    (sm.push_scope rf).find_symbol name = sm.find_symbol name := by
  show ((sm.current_scope ++ [rf]).reverse.findSome?
      fun a => (sm.nodeAt a).children.lookup name) = _
  rw [List.reverse_append]
  simp only [List.reverse_cons, List.reverse_nil, List.nil_append, List.cons_append,
    List.findSome?]
  rw [h]
  rfl

end ScopeManager

/-! ## C4: `find_symbol` and the active-scope stack -/

/-- **C4, counterexample.**  The claim says `find_symbol` "returns the
first node whose direct children contain the name".  In `smC4` the only
node whose direct children contain `x` is node `0`, yet
`find_symbol "x"` returns node `1` — the child bound to the name, whose
own children do not contain `x`. -/
theorem claim4_counterexample :
    smC4.find_symbol "x" = some 1
    ∧ (smC4.nodeAt 0).children.lookup "x" = some 1
    ∧ (smC4.nodeAt 1).children.lookup "x" = none
    ∧ (1 : Nat) ≠ 0 :=
  ⟨rfl, rfl, rfl, by decide⟩

/-- **C4, amended.**  `find_symbol` searches only the nodes currently on
the active-scope stack, from innermost (last pushed) to outermost, and
returns the *child node bound to the name* in the first active node
whose direct children contain it; it returns none exactly when no active
node's direct children contain the name; and nodes not on the stack are
never consulted — the result depends only on the stack and the nodes it
lists. -/
theorem claim4_find_symbol_stack_order (sm : ScopeManager) (name : String) :
    (∀ c, sm.find_symbol name = some c ↔
      ∃ (i : Nat) (a : Nat), (sm.current_scope.reverse)[i]? = some a
        ∧ (sm.nodeAt a).children.lookup name = some c
        ∧ ∀ (j : Nat) (b : Nat), j < i → (sm.current_scope.reverse)[j]? = some b →
            (sm.nodeAt b).children.lookup name = none)
    ∧ (sm.find_symbol name = none ↔
        ∀ a ∈ sm.current_scope, (sm.nodeAt a).children.lookup name = none)
    ∧ (∀ sm' : ScopeManager, sm'.current_scope = sm.current_scope →
        (∀ a ∈ sm.current_scope, sm'.nodeAt a = sm.nodeAt a) →
        sm'.find_symbol name = sm.find_symbol name) := by
  refine ⟨fun c => ?_, ?_, fun sm' hstack hnodes => ?_⟩
  · exact findSome?_eq_some_iff _ sm.current_scope.reverse c
  · rw [show sm.find_symbol name
        = sm.current_scope.reverse.findSome? (fun a => (sm.nodeAt a).children.lookup name)
      from rfl, findSome?_eq_none_iff]
    constructor
    · intro h a ha
      exact h a (by simpa using ha)
    · intro h a ha
      exact h a (by simpa using ha)
  · exact ScopeManager.find_symbol_congr sm sm' name hstack
      fun a ha => by rw [hnodes a ha]

/-- Witness for C4 at the concrete manager `smC4`: the inner hypotheses
of the characterisation are discharged at index `0`. -/
theorem claim4_find_symbol_stack_order_witness : smC4.find_symbol "x" = some 1 :=
  ((claim4_find_symbol_stack_order smC4 "x").1 1).mpr
    ⟨0, 0, rfl, rfl, fun j b hj _ => absurd hj (Nat.not_lt_zero j)⟩

/-! ## C5: `update_value` overwrites in place or inserts under the innermost scope -/

/-- **C5.**  `update_value` behaves in exactly one of two ways.  If the
name resolves via the active-scope stack, the resolved node's value is
overwritten in place — same node, children kept, no node added, every
other node untouched — and the previous value is returned.  Otherwise a
fresh child node holding the value is inserted under the innermost
active scope (so a name bound after pushing a scope lands in that
scope's own children unless it already resolves via an active node) and
none is returned.  The hypotheses require a nonempty stack and in-range
addresses, which hold for every manager the evaluator builds (the root
is pushed at construction and `Rf` handles always dereference). -/
theorem claim5_update_value_two_ways (sm : ScopeManager) (name : String) (value : ScopeValue)
    (hne : sm.current_scope ≠ []) :
    (∀ a, sm.find_symbol name = some a → a < sm.nodes.length →
      (sm.update_value name value).2 = some (sm.nodeAt a).value
      ∧ ((sm.update_value name value).1.nodeAt a).value = value
      ∧ ((sm.update_value name value).1.nodeAt a).children = (sm.nodeAt a).children
      ∧ (∀ b, b ≠ a → (sm.update_value name value).1.nodeAt b = sm.nodeAt b)
      ∧ (sm.update_value name value).1.nodes.length = sm.nodes.length
      ∧ (sm.update_value name value).1.current_scope = sm.current_scope)
    ∧ (∀ scp, sm.find_symbol name = none →
      sm.current_scope.getLast? = some scp → scp < sm.nodes.length →
      (sm.update_value name value).2 = none
      ∧ ((sm.update_value name value).1.nodeAt scp).children.lookup name = some sm.nodes.length
      ∧ (sm.update_value name value).1.nodeAt sm.nodes.length = ⟨value, []⟩
      ∧ ((sm.update_value name value).1.nodeAt scp).value = (sm.nodeAt scp).value
      ∧ (∀ n, n ≠ name →
          ((sm.update_value name value).1.nodeAt scp).children.lookup n
            = (sm.nodeAt scp).children.lookup n)
      ∧ (∀ b, b ≠ scp → b ≠ sm.nodes.length →
          (sm.update_value name value).1.nodeAt b = sm.nodeAt b)
      ∧ (sm.update_value name value).1.current_scope = sm.current_scope) := by
  constructor
  · intro a hfind hlt
    unfold ScopeManager.update_value
    rw [hfind]
    refine ⟨rfl, ?_, ?_, fun b hb => ?_, by simp [ScopeManager.setNode], rfl⟩
    · rw [ScopeManager.nodeAt_setNode_self sm a _ hlt]
    · rw [ScopeManager.nodeAt_setNode_self sm a _ hlt]
    · exact ScopeManager.nodeAt_setNode_ne sm a b _ (Ne.symm hb)
  · intro scp hfind hscp hlt
    unfold ScopeManager.update_value
    rw [hfind, hscp]
    set sm1 : ScopeManager := { sm with nodes := sm.nodes ++ [Scope.new value] } with hsm1
    have hlt1 : scp < sm1.nodes.length := by simp [hsm1]; omega
    have hscpnode : sm1.nodeAt scp = sm.nodeAt scp :=
      ScopeManager.nodeAt_appendNode_ne sm _ scp (by omega)
    have hfresh : sm1.nodeAt sm.nodes.length = Scope.new value :=
      ScopeManager.nodeAt_appendNode_self sm _
    refine ⟨rfl, ?_, ?_, ?_, fun n hn => ?_, fun b hbs hbl => ?_, rfl⟩
    · rw [ScopeManager.nodeAt_setNode_self sm1 scp _ hlt1]
      simp [hscpnode, lookup_insertChild_self]
    · rw [ScopeManager.nodeAt_setNode_ne sm1 scp _ _ (by omega)]
      exact hfresh
    · rw [ScopeManager.nodeAt_setNode_self sm1 scp _ hlt1, hscpnode]
    · rw [ScopeManager.nodeAt_setNode_self sm1 scp _ hlt1]
      simp [hscpnode, lookup_insertChild_ne name sm.nodes.length n hn]
    · rw [ScopeManager.nodeAt_setNode_ne sm1 scp _ _ (Ne.symm hbs)]
      exact ScopeManager.nodeAt_appendNode_ne sm _ b hbl

/-- Witness for C5 at the concrete manager `smC4`: both hypotheses are
discharged — `x` resolves (first way), `y` does not (second way). -/
theorem claim5_update_value_two_ways_witness :
    (smC4.update_value "x" (.constValue (ConstValue.cinteger 9))).2
      = some (smC4.nodeAt 1).value
    ∧ (smC4.update_value "y" .module).2 = none := by
  constructor
  · exact ((claim5_update_value_two_ways smC4 "x" (.constValue (ConstValue.cinteger 9))
      (by decide)).1 1 rfl (by decide)).1
  · exact ((claim5_update_value_two_ways smC4 "y" .module (by decide)).2 0 rfl rfl
      (by decide)).1

/-! ## C6: `follow_member_access_mut` shapes and success criterion -/

/-- **C6, counterexample.**  The claim says the function "returns
success exactly when the path resolves (a record-instance binding with
the named member)".  With `p` bound to a record instance whose only
member is `x`, following `p.y` returns success even though `y` is not a
member — and mutates nothing (the manager is returned unchanged). -/
theorem claim6_counterexample :
    smC6.follow_member_access_mut (.ident "p" rng0) (.ident "y" rng0)
        (fun _ => ConstValue.cinteger 9)
      = (smC6, true)
    ∧ (CvEnv.cons "x" (ConstValue.cinteger 1) CvEnv.nil).lookup "y" = none
    ∧ (smC6.nodeAt 1).value
        = .constValue (ConstValue.record_instance (.cons "x" (ConstValue.cinteger 1) .nil)) :=
  ⟨rfl, rfl, rfl⟩

/-- Left/right shapes other than the two recognized ones fail without
mutating anything. -/
theorem follow_member_access_other_shapes (sm : ScopeManager) (cb : ConstValue → ConstValue)
    (left right : Expression)
    (h1 : ¬(isIdentExpr left = true ∧ isIdentExpr right = true))
    (h2 : ¬(isDotBinaryExpr left = true ∧ isIdentExpr right = true)) :
    sm.follow_member_access_mut left right cb = (sm, false) := by
  cases left with
  | integer v r => cases right <;> simp [ScopeManager.follow_member_access_mut]
  | floatLit v r => cases right <;> simp [ScopeManager.follow_member_access_mut]
  | ident nm r =>
      cases right <;> simp_all [ScopeManager.follow_member_access_mut, isIdentExpr]
  | binary ol oop orr rb =>
      rcases ol with _ | le <;> rcases oop with _ | op <;> rcases orr with _ | re <;>
        cases right <;>
          first
            | (simp [ScopeManager.follow_member_access_mut]; done)
            | (cases op <;>
                simp_all [ScopeManager.follow_member_access_mut, isDotBinaryExpr, isIdentExpr])
  | functionCall a b c => cases right <;> simp [ScopeManager.follow_member_access_mut]
  | functionLit a b c d => cases right <;> simp [ScopeManager.follow_member_access_mut]
  | record a b => cases right <;> simp [ScopeManager.follow_member_access_mut]

/-- **C6, amended.**  `follow_member_access_mut` recognizes exactly two
left/right shapes — a direct `ident.ident`, and a left side that is
itself a dot binary expression with an `ident` on the right.  In the
direct shape it returns success exactly when the left identifier
resolves to a record-instance *binding*: when the named member exists
the mutator is applied to it in place, and when it does not exist
nothing is mutated but success is still returned.  The nested shape
delegates to `fom`, which only accepts `ident.ident` inside — so every
deeper or other shape returns failure without mutating anything. -/
theorem claim6_follow_member_access_shapes (sm : ScopeManager) (cb : ConstValue → ConstValue) :
    (∀ (l r : String) (lr rr : Range),
      (sm.find_symbol l = none →
        sm.follow_member_access_mut (.ident l lr) (.ident r rr) cb = (sm, false))
      ∧ (∀ a, sm.find_symbol l = some a →
          (∀ mt members,
            (sm.nodeAt a).value
              = .constValue (.mk (.recordInstance mt) (.recordInstance members)) →
            (members.lookup r = none →
              sm.follow_member_access_mut (.ident l lr) (.ident r rr) cb = (sm, true))
            ∧ (∀ m, members.lookup r = some m →
              sm.follow_member_access_mut (.ident l lr) (.ident r rr) cb
                = (sm.setNode a
                    { sm.nodeAt a with
                      value := .constValue (.mk (.recordInstance mt)
                        (.recordInstance (members.setExisting r (cb m)))) }, true)))
          ∧ ((∀ mt members,
              (sm.nodeAt a).value
                ≠ .constValue (.mk (.recordInstance mt) (.recordInstance members))) →
            sm.follow_member_access_mut (.ident l lr) (.ident r rr) cb = (sm, false))))
    ∧ (∀ (il ir : Expression) (mr : String) (rb rr : Range),
        sm.follow_member_access_mut (.binary (some il) (some .dot) (some ir) rb)
            (.ident mr rr) cb
          = sm.fom il ir (ScopeManager.descendMember mr cb))
    ∧ (∀ (l r : String) (lr rr : Range) (cb2 : ConstValue → ConstValue),
        sm.fom (.ident l lr) (.ident r rr) cb2
          = sm.follow_member_access_mut (.ident l lr) (.ident r rr) cb2)
    ∧ (∀ (il ir : Expression) (cb2 : ConstValue → ConstValue),
        ¬(isIdentExpr il = true ∧ isIdentExpr ir = true) →
        sm.fom il ir cb2 = (sm, false))
    ∧ (∀ (left right : Expression),
        ¬(isIdentExpr left = true ∧ isIdentExpr right = true) →
        ¬(isDotBinaryExpr left = true ∧ isIdentExpr right = true) →
        sm.follow_member_access_mut left right cb = (sm, false)) := by
  refine ⟨fun l r lr rr => ⟨fun hf => ?_, fun a hf => ⟨fun mt members hv => ⟨fun hnone => ?_,
      fun m hm => ?_⟩, fun hnot => ?_⟩⟩,
    fun il ir mr rb rr => rfl, fun l r lr rr cb2 => rfl, fun il ir cb2 hshape => ?_,
    fun left right h1 h2 => follow_member_access_other_shapes sm cb left right h1 h2⟩
  · simp [ScopeManager.follow_member_access_mut, hf]
  · simp [ScopeManager.follow_member_access_mut, hf, hv, hnone]
  · simp [ScopeManager.follow_member_access_mut, hf, hv, hm]
  · rcases hval : (sm.nodeAt a).value with cv | ⟨i, mems⟩ | _
    · obtain ⟨t, k⟩ := cv
      cases t <;> cases k <;>
        first
          | exact absurd hval (hnot _ _)
          | simp [ScopeManager.follow_member_access_mut, hf, hval]
    · simp [ScopeManager.follow_member_access_mut, hf, hval]
    · simp [ScopeManager.follow_member_access_mut, hf, hval]
  · cases il <;> cases ir <;> simp_all [ScopeManager.fom, isIdentExpr]

/-! ## The argument-binding loop of the call protocol -/

theorem bindArgs_ok_stack_errors (raws : List Expression) :
    ∀ (vals : List ConstValue) (ps : TyEnv) (i : Nat) (st st' : EvalState) (b : Bool),
      bindArgs raws st vals ps i = .ok (st', b) →
      st'.scope.current_scope = st.scope.current_scope
      ∧ (b = true → st'.errors = st.errors) := by
  intro vals
  induction vals with
  | nil =>
    intro ps i st st' b h
    simp only [bindArgs] at h
    injection h with h
    injection h with h1 h2
    subst h1
    exact ⟨rfl, fun _ => rfl⟩
  | cons arg args ih =>
    intro ps i st st' b h
    cases ps with
    | nil =>
      simp only [bindArgs] at h
      injection h with h
      injection h with h1 h2
      subst h1
      exact ⟨rfl, fun _ => rfl⟩
    | cons name ty ps' =>
      simp only [bindArgs] at h
      by_cases he : arg.ty = ty
      · rw [if_pos he] at h
        have hrec := ih ps' (i + 1) _ st' b h
        refine ⟨hrec.1.trans ?_, fun hb => hrec.2 hb⟩
        exact ScopeManager.update_value_current_scope _ _ _
      · rw [if_neg he] at h
        cases hr : raws[i]? with
        | some rexp =>
          rw [hr] at h
          injection h with h
          injection h with h1 h2
          subst h1
          exact ⟨rfl, fun hb => absurd hb.symm (by simp [h2.symm])⟩
        | none =>
          rw [hr] at h
          exact absurd h (by simp)

theorem bindArgs_all_match (raws : List Expression) :
    ∀ (vals : List ConstValue) (ps : TyEnv) (i : Nat) (st : EvalState),
      (∀ (j : Nat) (aj : ConstValue) (nj : String) (tj : Ty),
        vals[j]? = some aj → ps.get? j = some (nj, tj) → aj.ty = tj) →
      ∃ st', bindArgs raws st vals ps i = .ok (st', true)
        ∧ st'.errors = st.errors
        ∧ st'.scope.current_scope = st.scope.current_scope := by
  intro vals
  induction vals with
  | nil => intro ps i st _; exact ⟨st, rfl, rfl, rfl⟩
  | cons arg args ih =>
    intro ps i st hmatch
    cases ps with
    | nil => exact ⟨st, rfl, rfl, rfl⟩
    | cons name ty ps' =>
      have h0 : arg.ty = ty := hmatch 0 arg name ty (by simp) rfl
      obtain ⟨st', hb, herr, hsc⟩ :=
        ih ps' (i + 1) (st.withScope (st.scope.update_value name (.constValue arg)).1)
          (fun j aj nj tj hv hp => hmatch (j + 1) aj nj tj (by simpa using hv) hp)
      refine ⟨st', ?_, herr, hsc.trans (ScopeManager.update_value_current_scope _ _ _)⟩
      simp only [bindArgs, if_pos h0]
      exact hb

theorem bindArgs_first_mismatch (raws : List Expression) :
    ∀ (i : Nat) (vals : List ConstValue) (ps : TyEnv) (k : Nat) (st : EvalState)
      (argi : ConstValue) (name : String) (ty : Ty) (rexp : Expression),
      vals[i]? = some argi → ps.get? i = some (name, ty) → argi.ty ≠ ty →
      raws[k + i]? = some rexp →
      (∀ (j : Nat) (aj : ConstValue) (nj : String) (tj : Ty), j < i →
        vals[j]? = some aj → ps.get? j = some (nj, tj) → aj.ty = tj) →
      ∃ st', bindArgs raws st vals ps k = .ok (st', false)
        ∧ st'.errors = st.errors ++ [⟨.typeMismatch argi.ty ty, rexp.get_range⟩]
        ∧ st'.scope.current_scope = st.scope.current_scope := by
  intro i
  induction i with
  | zero =>
    intro vals ps k st argi name ty rexp hv hp hne hr _
    cases vals with
    | nil => simp at hv
    | cons arg args =>
      cases ps with
      | nil => simp [TyEnv.get?] at hp
      | cons n0 t0 ps' =>
        rw [List.getElem?_cons_zero] at hv
        injection hv with hv
        injection hp with hp
        have hty : t0 = ty := congrArg Prod.snd hp
        rw [Nat.add_zero] at hr
        refine ⟨st.add_error ⟨.typeMismatch argi.ty ty, rexp.get_range⟩, ?_, rfl, rfl⟩
        simp only [bindArgs, hv, hty, if_neg hne, hr]
  | succ i ih =>
    intro vals ps k st argi name ty rexp hv hp hne hr hpre
    cases vals with
    | nil => simp at hv
    | cons a0 args =>
      cases ps with
      | nil => simp [TyEnv.get?] at hp
      | cons n0 t0 ps' =>
        have h0 : a0.ty = t0 := hpre 0 a0 n0 t0 (Nat.succ_pos i) (by simp) rfl
        rw [List.getElem?_cons_succ] at hv
        have hr' : raws[(k + 1) + i]? = some rexp := by
          rw [show k + 1 + i = k + (i + 1) by omega]
          exact hr
        obtain ⟨st', hb, herr, hsc⟩ :=
          ih args ps' (k + 1)
            (st.withScope (st.scope.update_value n0 (.constValue a0)).1)
            argi name ty rexp hv hp hne hr'
            (fun j aj nj tj hj hjv hjp =>
              hpre (j + 1) aj nj tj (Nat.succ_lt_succ hj) (by simpa using hjv) hjp)
        refine ⟨st', ?_, herr, hsc.trans (ScopeManager.update_value_current_scope _ _ _)⟩
        simp only [bindArgs, if_pos h0]
        exact hb

theorem bindArgs_take_vals (raws : List Expression) :
    ∀ (vals : List ConstValue) (ps : TyEnv) (i : Nat) (st : EvalState),
      bindArgs raws st vals ps i = bindArgs raws st (vals.take ps.length) ps i := by
  intro vals
  induction vals with
  | nil => intro ps i st; rw [List.take_nil]
  | cons arg args ih =>
    intro ps i st
    cases ps with
    | nil => rfl
    | cons n t ps' =>
      simp only [TyEnv.length, List.take_succ_cons, bindArgs]
      by_cases he : arg.ty = t
      · rw [if_pos he, if_pos he, ih]
      · rw [if_neg he, if_neg he]

theorem bindArgs_take_ps (raws : List Expression) :
    ∀ (vals : List ConstValue) (ps : TyEnv) (i : Nat) (st : EvalState),
      bindArgs raws st vals ps i = bindArgs raws st vals (ps.take vals.length) i := by
  intro vals
  induction vals with
  | nil => intro ps i st; rfl
  | cons arg args ih =>
    intro ps i st
    cases ps with
    | nil => rfl
    | cons n t ps' =>
      simp only [List.length_cons, TyEnv.take, bindArgs]
      by_cases he : arg.ty = t
      · rw [if_pos he, if_pos he, ih]
      · rw [if_neg he, if_neg he]

/-! ## C1: call-site type mismatch -/

/-- **C1.**  For a call whose callee evaluated to a Function value:
checking the (argument, declared-parameter) pairs in positional order,
at the first pair whose types are not exactly equal, exactly one
`TypeMismatch` error carrying that argument's source range is appended
to the error list, and the call evaluates to empty immediately.  The
resulting state is the same for *every* statement evaluator and every
body — the body is not executed — and its active-scope stack still ends
in the pushed call frame `rf`: the scope is not popped. -/
theorem claim1_call_mismatch_one_error_no_pop
    (st : EvalState) (ptypes rptypes : TyEnv) (rf : Nat)
    (vals : List ConstValue) (raws : List Expression) (i : Nat)
    (argi : ConstValue) (name : String) (ty : Ty) (rexp : Expression)
    (hv : vals[i]? = some argi) (hp : ptypes.get? i = some (name, ty))
    (hne : argi.ty ≠ ty) (hr : raws[i]? = some rexp)
    (hpre : ∀ (j : Nat) (aj : ConstValue) (nj : String) (tj : Ty), j < i →
      vals[j]? = some aj → ptypes.get? j = some (nj, tj) → aj.ty = tj) :
    ∃ stB, (∀ (recS : SFun) (body : Statement),
        evalCall recS st (.mk (.function ptypes rptypes) (.function body rf)) vals raws
          = .ok (ConstValue.empty, stB))
      ∧ stB.scope.current_scope = st.scope.current_scope ++ [rf]
      ∧ stB.errors = st.errors ++ [⟨.typeMismatch argi.ty ty, rexp.get_range⟩] := by
  obtain ⟨stB, hb, herr, hsc⟩ :=
    bindArgs_first_mismatch raws i vals ptypes 0
      (st.withScope (st.scope.push_scope rf)) argi name ty rexp hv hp hne
      (by simpa using hr) hpre
  refine ⟨stB, fun recS body => ?_, ?_, herr⟩
  · simp only [evalCall]
    rw [hb]
    simp
  · exact hsc.trans rfl

/-- Witness for C1: calling a function declared with one `i32`
parameter on a coercible-float argument. -/
theorem claim1_call_mismatch_one_error_no_pop_witness :
    ∃ stB, (∀ (recS : SFun) (body : Statement),
        evalCall recS stRoot
            (.mk (.function (.cons "a" (.integer 32 true) .nil) (.cons "r" (.integer 32 true) .nil))
              (.function body 2))
            [ConstValue.cfloat 77] [.floatLit 77 ⟨3, 5⟩]
          = .ok (ConstValue.empty, stB))
      ∧ stB.scope.current_scope = stRoot.scope.current_scope ++ [2]
      ∧ stB.errors = stRoot.errors
          ++ [⟨.typeMismatch (ConstValue.cfloat 77).ty (.integer 32 true),
               (Expression.floatLit 77 ⟨3, 5⟩).get_range⟩] :=
  claim1_call_mismatch_one_error_no_pop stRoot
    (.cons "a" (.integer 32 true) .nil) (.cons "r" (.integer 32 true) .nil) 2
    [ConstValue.cfloat 77] [.floatLit 77 ⟨3, 5⟩] 0
    (ConstValue.cfloat 77) "a" (.integer 32 true) (.floatLit 77 ⟨3, 5⟩)
    (by simp) rfl (by decide) (by simp)
    (fun j aj nj tj hj _ _ => absurd hj (Nat.not_lt_zero j))

/-! ## C10: no arity check in the call protocol -/

/-- **C10.**  A function call never checks arity.  All argument
expressions are evaluated (one value per argument, positionally);
binding then walks the *zip* of values and declared parameters, so the
loop ignores arguments beyond the parameter list and parameters beyond
the argument list — truncating either side to the other's length does
not change its behaviour — and when every zipped pair type-matches the
loop succeeds with no error recorded and no abort, whatever the two
lengths are. -/
theorem claim10_positional_zip_no_arity_check (raws : List Expression) :
    (∀ (recE : EFun) (st : EvalState) (args : List Expression) (vs : List ConstValue)
        (st' : EvalState),
      evalArgsList recE st args = .ok (vs, st') → vs.length = args.length)
    ∧ (∀ (st : EvalState) (vals : List ConstValue) (ps : TyEnv) (i : Nat),
        bindArgs raws st vals ps i = bindArgs raws st (vals.take ps.length) ps i
        ∧ bindArgs raws st vals ps i = bindArgs raws st vals (ps.take vals.length) i)
    ∧ (∀ (st : EvalState) (vals : List ConstValue) (ps : TyEnv) (i : Nat),
        (∀ (j : Nat) (aj : ConstValue) (nj : String) (tj : Ty),
          vals[j]? = some aj → ps.get? j = some (nj, tj) → aj.ty = tj) →
        ∃ st', bindArgs raws st vals ps i = .ok (st', true)
          ∧ st'.errors = st.errors
          ∧ st'.scope.current_scope = st.scope.current_scope) := by
  refine ⟨fun recE st args => ?_, fun st vals ps i =>
      ⟨bindArgs_take_vals raws vals ps i st, bindArgs_take_ps raws vals ps i st⟩,
    fun st vals ps i h => bindArgs_all_match raws vals ps i st h⟩
  induction args generalizing st with
  | nil =>
    intro vs st' h
    simp only [evalArgsList] at h
    injection h with h
    injection h with h1 h2
    rw [← h1]
    rfl
  | cons e rest ih =>
    intro vs st' h
    simp only [evalArgsList] at h
    cases hre : recE st e with
    | error p => rw [hre] at h; exact absurd h (by simp)
    | ok p =>
      rw [hre] at h
      obtain ⟨v, st1⟩ := p
      simp only [EvalM.bind_ok] at h
      cases hrl : evalArgsList recE st1 rest with
      | error p => rw [hrl] at h; exact absurd h (by simp)
      | ok q =>
        rw [hrl] at h
        obtain ⟨vs', st2⟩ := q
        simp only [EvalM.bind_ok] at h
        injection h with h
        injection h with h1 h2
        rw [← h1]
        simp [ih st1 vs' st2 hrl]

/-- Witness for C10: two arguments against one parameter bind without
error, and one argument against two parameters equals binding against
the one-entry truncation. -/
theorem claim10_positional_zip_no_arity_check_witness :
    (∃ st', bindArgs [] stRoot [ConstValue.cinteger 1, ConstValue.cinteger 2]
        (.cons "a" .coercibleInteger .nil) 0 = .ok (st', true)
      ∧ st'.errors = stRoot.errors
      ∧ st'.scope.current_scope = stRoot.scope.current_scope)
    ∧ bindArgs [] stRoot [ConstValue.cinteger 1]
        (.cons "a" .coercibleInteger (.cons "b" .coercibleInteger .nil)) 0
      = bindArgs [] stRoot [ConstValue.cinteger 1]
          ((TyEnv.cons "a" .coercibleInteger (.cons "b" .coercibleInteger .nil)).take 1) 0 := by
  constructor
  · apply (claim10_positional_zip_no_arity_check []).2.2
    intro j aj nj tj hv hp
    cases j with
    | zero =>
      rw [List.getElem?_cons_zero] at hv
      injection hv with hv
      injection hp with hp
      simp only [Prod.mk.injEq] at hp
      rw [← hv, ← hp.2]
      rfl
    | succ k =>
      cases k with
      | zero => simp [TyEnv.get?] at hp
      | succ m => simp at hv
  · exact ((claim10_positional_zip_no_arity_check []).2.1 stRoot
      [ConstValue.cinteger 1] (.cons "a" .coercibleInteger (.cons "b" .coercibleInteger .nil)) 0).2

/-! ## C2: captured scope, call frame, and caller visibility -/

/-- **C2, counterexample.**  The claim says a binding visible only in
the caller's frame resolves to empty inside the callee's body.  In
`stC2`, `c` is bound only in the caller frame (node `1`) — it is in the
children of neither the captured node `2` nor the root — yet calling
`g()` (whose body runs `out = c`) returns `out` bound to the *caller's*
value `CoercibleInteger 5`, not empty: `push_scope` stacks the callee
frame on top of the caller's, so the caller's frame is still searched. -/
theorem claim2_counterexample :
    evalExpr zeroFloatOps 9 stC2 callGExpr
      = .ok (ConstValue.record_instance (.cons "out" (ConstValue.cinteger 5) .nil), stC2After)
    ∧ (stC2.scope.nodeAt 2).children.lookup "c" = none
    ∧ (stC2.scope.nodeAt stC2.scope.module).children.lookup "c" = none
    ∧ ConstValue.cinteger 5 ≠ ConstValue.empty :=
  ⟨rfl, rfl, rfl, by simp [ConstValue.cinteger, ConstValue.empty]⟩

/-- **C2, amended.**  (A) A function declaration stores in the function
value the very node at which the function's own name is bound.  (B)
Invoking a function pushes exactly the captured node as the call frame
(the body runs in a state whose stack is the caller's stack with `rf`
appended — not a fresh child of the call site).  (C) However, because
the push *appends* to the caller's stack, every caller frame remains
searchable below the pushed frame: a name absent from the captured
node's children resolves inside the callee body exactly as it did in
the caller — so a caller-only binding yields the caller's value, not
empty. -/
theorem claim2_capture_push_caller_visible (F : FloatOps) :
    (∀ (recS : SFun) (recE : EFun) (st : EvalState) (id : String) (idr : Range)
        (ann : Option AstType) (params rets : List Param) (body : Statement) (rngL : Range),
      st.scope.current_scope ≠ [] →
      (∀ a ∈ st.scope.current_scope, a < st.scope.nodes.length) →
      (∀ a, st.scope.find_symbol id = some a → a < st.scope.nodes.length) →
      ∃ (a : Nat) (st' : EvalState),
        mkEvalStmt recS recE st
            (.decleration id idr ann (some (.functionLit params rets (some body) rngL)))
          = .ok (ConstValue.empty, st')
        ∧ st'.scope.find_symbol id = some a
        ∧ (st'.scope.nodeAt a).value
            = .constValue
                (ConstValue.func body (evaluateParams st params) (evaluateParams st rets) a))
    ∧ (∀ (recS : SFun) (st : EvalState) (ptypes rptypes : TyEnv) (body : Statement)
        (rf : Nat) (vals : List ConstValue) (raws : List Expression) (stB : EvalState),
      bindArgs raws (st.withScope (st.scope.push_scope rf)) vals ptypes 0 = .ok (stB, true) →
      stB.scope.current_scope = st.scope.current_scope ++ [rf]
      ∧ evalCall recS st (.mk (.function ptypes rptypes) (.function body rf)) vals raws
          = (match recS stB body with
             | .ok p =>
                 (match p.2.scope.pop_scope with
                  | some q =>
                      .ok (ConstValue.record_instance (collectReturns p.2 rptypes),
                        p.2.withScope q.2)
                  | none => .error .poppedEmptyScope)
             | .error e => .error e))
    ∧ (∀ (sm : ScopeManager) (rf : Nat) (name : String),
        (sm.nodeAt rf).children.lookup name = none →
        (sm.push_scope rf).find_symbol name = sm.find_symbol name)
    ∧ (∀ (recS : SFun) (recE : EFun) (st : EvalState) (rf : Nat) (name : String) (r : Range)
        (a : Nat) (cv : ConstValue),
        (st.scope.nodeAt rf).children.lookup name = none →
        st.scope.find_symbol name = some a →
        (st.scope.nodeAt a).value = .constValue cv →
        mkEvalExpr F recS recE (st.withScope (st.scope.push_scope rf)) (.ident name r)
          = .ok (cv, st.withScope (st.scope.push_scope rf))) := by
  refine ⟨?_, ?_, fun sm rf name h => ScopeManager.find_symbol_push_notin sm rf name h, ?_⟩
  · intro recS recE st id idr ann params rets body rngL hne hvalid hres
    cases hf : st.scope.find_symbol id with
    | some a0 =>
      have ha0 : a0 < st.scope.nodes.length := hres a0 hf
      have hu1 : (st.scope.update_value id (.constValue ConstValue.empty)).1
          = st.scope.setNode a0
              { st.scope.nodeAt a0 with value := .constValue ConstValue.empty } := by
        unfold ScopeManager.update_value
        rw [hf]
      have hfind1 : (st.scope.update_value id (.constValue ConstValue.empty)).1.find_symbol id
          = some a0 := by
        rw [hu1, ScopeManager.find_symbol_setNode_value]
        exact hf
      set sm1 := (st.scope.update_value id (.constValue ConstValue.empty)).1 with hsm1
      have hlen1 : sm1.nodes.length = st.scope.nodes.length := by
        rw [hu1]
        simp [ScopeManager.setNode]
      set fv : ConstValue :=
        ConstValue.func body (evaluateParams st params) (evaluateParams st rets) a0 with hfv
      have hu2 : (sm1.update_value id (.constValue fv)).1
          = sm1.setNode a0 { sm1.nodeAt a0 with value := .constValue fv } := by
        unfold ScopeManager.update_value
        rw [hfind1]
      refine ⟨a0, st.withScope (sm1.update_value id (.constValue fv)).1, ?_, ?_, ?_⟩
      · simp only [mkEvalStmt]
        rw [show (st.withScope sm1).scope.find_symbol id = some a0 from hfind1]
        rfl
      · show (sm1.update_value id (.constValue fv)).1.find_symbol id = some a0
        rw [hu2, ScopeManager.find_symbol_setNode_value]
        exact hfind1
      · show ((sm1.update_value id (.constValue fv)).1.nodeAt a0).value = .constValue fv
        rw [hu2, ScopeManager.nodeAt_setNode_self _ _ _ (by rw [hlen1]; exact ha0)]
    | none =>
      have hgl : st.scope.current_scope.getLast? = some (st.scope.current_scope.getLast hne) :=
        List.getLast?_eq_getLast _ hne
      set scp := st.scope.current_scope.getLast hne with hscpdef
      have hscpv : scp < st.scope.nodes.length := hvalid scp (List.getLast_mem hne)
      set smA : ScopeManager :=
        { st.scope with nodes := st.scope.nodes ++ [Scope.new (.constValue ConstValue.empty)] }
        with hsmA
      have hu1 : (st.scope.update_value id (.constValue ConstValue.empty)).1
          = smA.setNode scp
              { smA.nodeAt scp with
                children := insertChild id st.scope.nodes.length (smA.nodeAt scp).children } := by
        unfold ScopeManager.update_value
        rw [hf, hgl]
      set sm1 := (st.scope.update_value id (.constValue ConstValue.empty)).1 with hsm1
      have hlenA : smA.nodes.length = st.scope.nodes.length + 1 := by simp [hsmA]
      have hlen1 : sm1.nodes.length = st.scope.nodes.length + 1 := by
        rw [hu1]
        simp [ScopeManager.setNode, hlenA]
      have hnodescp : sm1.nodeAt scp
          = { smA.nodeAt scp with
              children := insertChild id st.scope.nodes.length (smA.nodeAt scp).children } := by
        rw [hu1]
        exact ScopeManager.nodeAt_setNode_self smA scp _ (by rw [hlenA]; omega)
      have hfind1 : sm1.find_symbol id = some st.scope.nodes.length := by
        have hsplit : st.scope.current_scope
            = st.scope.current_scope.dropLast ++ [scp] :=
          (List.dropLast_append_getLast hne).symm
        have hcs : sm1.current_scope = st.scope.current_scope := by
          rw [hu1]
          rfl
        show (sm1.current_scope.reverse.findSome?
            fun a => (sm1.nodeAt a).children.lookup id) = some st.scope.nodes.length
        rw [hcs, hsplit, List.reverse_append]
        simp only [List.reverse_cons, List.reverse_nil, List.nil_append, List.cons_append,
          List.findSome?]
        rw [hnodescp]
        simp only [lookup_insertChild_self]
      set fv : ConstValue :=
        ConstValue.func body (evaluateParams st params) (evaluateParams st rets)
          st.scope.nodes.length with hfv
      have hu2 : (sm1.update_value id (.constValue fv)).1
          = sm1.setNode st.scope.nodes.length
              { sm1.nodeAt st.scope.nodes.length with value := .constValue fv } := by
        unfold ScopeManager.update_value
        rw [hfind1]
      refine ⟨st.scope.nodes.length, st.withScope (sm1.update_value id (.constValue fv)).1,
        ?_, ?_, ?_⟩
      · simp only [mkEvalStmt]
        rw [show (st.withScope sm1).scope.find_symbol id = some st.scope.nodes.length from hfind1]
        rfl
      · show (sm1.update_value id (.constValue fv)).1.find_symbol id
            = some st.scope.nodes.length
        rw [hu2, ScopeManager.find_symbol_setNode_value]
        exact hfind1
      · show ((sm1.update_value id (.constValue fv)).1.nodeAt st.scope.nodes.length).value
            = .constValue fv
        rw [hu2, ScopeManager.nodeAt_setNode_self _ _ _ (by rw [hlen1]; omega)]
  · intro recS st ptypes rptypes body rf vals raws stB hbind
    have hstk := (bindArgs_ok_stack_errors raws vals ptypes 0 _ stB true hbind).1
    refine ⟨hstk.trans rfl, ?_⟩
    simp only [evalCall]
    rw [hbind]
    simp only [EvalM.bind_ok]
    cases hb : recS stB body with
    | error p => simp [hb]
    | ok p =>
      obtain ⟨v, st2⟩ := p
      cases hp : st2.scope.pop_scope with
      | some q => simp [hb, hp]
      | none => simp [hb, hp]
  · intro recS recE st rf name r a cv hnot hfind hval
    have hval2 : ((st.withScope (st.scope.push_scope rf)).scope.nodeAt a).value
        = ScopeValue.constValue cv := hval
    simp only [mkEvalExpr]
    rw [show (st.withScope (st.scope.push_scope rf)).scope.find_symbol name = some a by
      show (st.scope.push_scope rf).find_symbol name = some a
      rw [ScopeManager.find_symbol_push_notin _ _ _ hnot]
      exact hfind]
    simp [hval2]

/-- Witness for C2: each conjunct is applied at a concrete input — a
function declaration of `h` over the root-only state, an empty-argument
call, and the caller-visible name `c` of `stC2` seen through the pushed
frame `2`. -/
theorem claim2_capture_push_caller_visible_witness :
    (∃ (a : Nat) (st' : EvalState),
      mkEvalStmt constStmtEval constExprEval stRoot
          (.decleration "h" rng0 none (some (.functionLit [] [] (some .other) rng0)))
        = .ok (ConstValue.empty, st')
      ∧ st'.scope.find_symbol "h" = some a
      ∧ (st'.scope.nodeAt a).value
          = .constValue (ConstValue.func .other (evaluateParams stRoot [])
              (evaluateParams stRoot []) a))
    ∧ (stC2.scope.push_scope 2).find_symbol "c" = stC2.scope.find_symbol "c"
    ∧ mkEvalExpr zeroFloatOps constStmtEval constExprEval
        (stC2.withScope (stC2.scope.push_scope 2)) (.ident "c" rng0)
        = .ok (ConstValue.cinteger 5, stC2.withScope (stC2.scope.push_scope 2)) := by
  refine ⟨?_, ?_, ?_⟩
  · exact (claim2_capture_push_caller_visible zeroFloatOps).1 constStmtEval constExprEval
      stRoot "h" rng0 none [] [] .other rng0 (by decide) (by decide)
      (fun a h =>
        Option.noConfusion ((show stRoot.scope.find_symbol "h" = none from rfl).symm.trans h))
  · exact (claim2_capture_push_caller_visible zeroFloatOps).2.2.1 stC2.scope 2 "c" rfl
  · exact (claim2_capture_push_caller_visible zeroFloatOps).2.2.2 constStmtEval constExprEval
      stC2 2 "c" rng0 3 (ConstValue.cinteger 5) rfl rfl rfl

/-! ## Error accumulation across an evaluation pass -/

theorem errExt_refl (st : EvalState) : ErrExt st st := ⟨[], by simp⟩

theorem errExt_trans {st1 st2 st3 : EvalState} (h1 : ErrExt st1 st2) (h2 : ErrExt st2 st3) :
    ErrExt st1 st3 := by
  obtain ⟨t1, e1⟩ := h1
  obtain ⟨t2, e2⟩ := h2
  exact ⟨t1 ++ t2, by rw [e2, e1, List.append_assoc]⟩

theorem bindArgs_errExt (raws : List Expression) :
    ∀ (vals : List ConstValue) (ps : TyEnv) (i : Nat) (st st' : EvalState) (b : Bool),
      bindArgs raws st vals ps i = .ok (st', b) → ErrExt st st' := by
  intro vals
  induction vals with
  | nil =>
    intro ps i st st' b h
    injection h with h
    injection h with h1 h2
    subst h1
    exact errExt_refl st
  | cons arg args ih =>
    intro ps i st st' b h
    cases ps with
    | nil =>
      injection h with h
      injection h with h1 h2
      subst h1
      exact errExt_refl st
    | cons name ty ps' =>
      simp only [bindArgs] at h
      by_cases he : arg.ty = ty
      · rw [if_pos he] at h
        exact ih ps' (i + 1)
          (st.withScope (st.scope.update_value name (.constValue arg)).1) st' b h
      · rw [if_neg he] at h
        cases hr : raws[i]? with
        | some rexp =>
          rw [hr] at h
          injection h with h
          injection h with h1 h2
          subst h1
          exact ⟨_, rfl⟩
        | none => rw [hr] at h; exact absurd h (by simp)

theorem evalArith_errExt (F : FloatOps) (recE : EFun)
    (hrecE : ∀ st e r, recE st e = .ok r → ErrExt st r.2) :
    ∀ (st : EvalState) (l : Expression) (op : Operator) (rexp : Expression) r,
      evalArith F recE st l op rexp = .ok r → ErrExt st r.2 := by
  intro st l op rexp r h
  simp only [evalArith] at h
  cases h1 : recE st l with
  | error p => rw [h1] at h; exact absurd h (by simp)
  | ok p1 =>
    rw [h1] at h
    obtain ⟨lv, st1⟩ := p1
    simp only [EvalM.bind_ok] at h
    cases h2 : recE st1 rexp with
    | error p => rw [h2] at h; exact absurd h (by simp)
    | ok p2 =>
      rw [h2] at h
      obtain ⟨rv, st2⟩ := p2
      simp only [EvalM.bind_ok] at h
      cases h3 : binOpValues F op lv rv with
      | error p => rw [h3] at h; exact absurd h (by simp)
      | ok v =>
        rw [h3] at h
        simp only [EvalM.bind_ok] at h
        injection h with h
        subst h
        exact errExt_trans (hrecE st l (lv, st1) h1) (hrecE st1 rexp (rv, st2) h2)

theorem evalBinary_errExt (F : FloatOps) (recE : EFun)
    (hrecE : ∀ st e r, recE st e = .ok r → ErrExt st r.2) :
    ∀ (st : EvalState) (l : Expression) (op : Operator) (rexp : Expression) r,
      evalBinary F recE st l op rexp = .ok r → ErrExt st r.2 := by
  intro st l op rexp r h
  have hdefault : ∀ st0 : EvalState, evalArith F recE st0 l op rexp = .ok r → ErrExt st0 r.2 :=
    fun st0 hh => evalArith_errExt F recE hrecE st0 l op rexp r hh
  cases op
  case equals =>
    cases l
    case ident name rg =>
      simp only [evalBinary] at h
      cases h1 : recE st rexp with
      | error p => rw [h1] at h; exact absurd h (by simp)
      | ok p1 =>
        rw [h1] at h
        obtain ⟨rv, st1⟩ := p1
        simp only [EvalM.bind_ok] at h
        injection h with h
        subst h
        exact hrecE st rexp (rv, st1) h1
    case binary ol oop orr rg =>
      rcases ol with _ | dl
      · simp only [evalBinary] at h; exact hdefault st h
      · rcases oop with _ | dop
        · simp only [evalBinary] at h; exact hdefault st h
        · cases dop
          case dot =>
            rcases orr with _ | dr
            · simp only [evalBinary] at h; exact hdefault st h
            · simp only [evalBinary] at h
              cases h1 : recE st rexp with
              | error p => rw [h1] at h; exact absurd h (by simp)
              | ok p1 =>
                rw [h1] at h
                obtain ⟨rv, st1⟩ := p1
                simp only [EvalM.bind_ok] at h
                have hbase : ErrExt st st1 := hrecE st rexp (rv, st1) h1
                rcases hfo : st1.scope.follow_member_access_mut dl dr (fun _ => rv) with
                  ⟨sc, updated⟩
                rw [hfo] at h
                cases updated <;>
                  (simp only [Bool.false_eq_true, if_false, if_true] at h
                   injection h with h
                   subst h
                   exact hbase)
          all_goals (simp only [evalBinary] at h; exact hdefault st h)
    all_goals (simp only [evalBinary] at h; exact hdefault st h)
  case dot =>
    simp only [evalBinary] at h
    cases h1 : recE st l with
    | error p => rw [h1] at h; exact absurd h (by simp)
    | ok p1 =>
      rw [h1] at h
      obtain ⟨lv, st1⟩ := p1
      simp only [EvalM.bind_ok] at h
      have hbase : ErrExt st st1 := hrecE st l (lv, st1) h1
      have hdef1 : evalArith F recE st1 l .dot rexp = .ok r → ErrExt st r.2 :=
        fun hh => errExt_trans hbase (hdefault st1 hh)
      cases hk : lv.kind
      case recordInstance members =>
        rw [hk] at h
        cases rexp
        case ident member rg2 =>
          have h2 : (match members.lookup member with
              | some v => (Except.ok (v, st1) : EvalM (ConstValue × EvalState))
              | none => evalArith F recE st1 l .dot (.ident member rg2)) = .ok r := h
          cases hlk : members.lookup member with
          | some v =>
            rw [hlk] at h2
            injection h2 with h2
            subst h2
            exact hbase
          | none =>
            rw [hlk] at h2
            exact hdef1 h2
        all_goals exact hdef1 h
      all_goals (rw [hk] at h; exact hdef1 h)
  all_goals (simp only [evalBinary] at h; exact hdefault st h)

theorem evalArgsList_errExt (recE : EFun)
    (hrecE : ∀ st e r, recE st e = .ok r → ErrExt st r.2) :
    ∀ (args : List Expression) (st : EvalState) r,
      evalArgsList recE st args = .ok r → ErrExt st r.2 := by
  intro args
  induction args with
  | nil =>
    intro st r h
    injection h with h
    subst h
    exact errExt_refl st
  | cons e rest ih =>
    intro st r h
    simp only [evalArgsList] at h
    cases h1 : recE st e with
    | error p => rw [h1] at h; exact absurd h (by simp)
    | ok p1 =>
      rw [h1] at h
      obtain ⟨v, st1⟩ := p1
      simp only [EvalM.bind_ok] at h
      cases h2 : evalArgsList recE st1 rest with
      | error p => rw [h2] at h; exact absurd h (by simp)
      | ok p2 =>
        rw [h2] at h
        obtain ⟨vs, st2⟩ := p2
        simp only [EvalM.bind_ok] at h
        injection h with h
        subst h
        exact errExt_trans (hrecE st e (v, st1) h1) (ih st1 (vs, st2) h2)

theorem evalStmtSeq_errExt (recS : SFun)
    (hrecS : ∀ st s r, recS st s = .ok r → ErrExt st r.2) :
    ∀ (stmts : List Statement) (st : EvalState) r,
      evalStmtSeq recS st stmts = .ok r → ErrExt st r.2 := by
  intro stmts
  induction stmts with
  | nil =>
    intro st r h
    injection h with h
    subst h
    exact errExt_refl st
  | cons s rest ih =>
    intro st r h
    simp only [evalStmtSeq] at h
    cases h1 : recS st s with
    | error p => rw [h1] at h; exact absurd h (by simp)
    | ok p1 =>
      rw [h1] at h
      obtain ⟨v, st1⟩ := p1
      simp only [EvalM.bind_ok] at h
      cases h2 : evalStmtSeq recS st1 rest with
      | error p => rw [h2] at h; exact absurd h (by simp)
      | ok p2 =>
        rw [h2] at h
        obtain ⟨vs, st2⟩ := p2
        simp only [EvalM.bind_ok] at h
        injection h with h
        subst h
        exact errExt_trans (hrecS st s (v, st1) h1) (ih st1 (vs, st2) h2)

theorem evalCall_errExt (recS : SFun)
    (hrecS : ∀ st s r, recS st s = .ok r → ErrExt st r.2) :
    ∀ (st : EvalState) (cv : ConstValue) (vals : List ConstValue) (raws : List Expression) r,
      evalCall recS st cv vals raws = .ok r → ErrExt st r.2 := by
  intro st cv vals raws r h
  simp only [evalCall] at h
  split at h
  · rename_i ptypes rptypes body rf
    cases hb : bindArgs raws (st.withScope (st.scope.push_scope rf)) vals ptypes 0 with
    | error p => rw [hb] at h; exact absurd h (by simp)
    | ok pb =>
      rw [hb] at h
      obtain ⟨stB, bound⟩ := pb
      simp only [EvalM.bind_ok] at h
      have hext1 : ErrExt st stB :=
        bindArgs_errExt raws vals ptypes 0 (st.withScope (st.scope.push_scope rf)) stB bound hb
      cases bound with
      | false =>
        simp only [Bool.false_eq_true, if_false] at h
        injection h with h
        subst h
        exact hext1
      | true =>
        simp only [if_true] at h
        cases hbody : recS stB body with
        | error p => rw [hbody] at h; exact absurd h (by simp)
        | ok p2 =>
          rw [hbody] at h
          obtain ⟨v2, st2⟩ := p2
          simp only [EvalM.bind_ok] at h
          cases hpop : st2.scope.pop_scope with
          | none => rw [hpop] at h; exact absurd h (by simp)
          | some q =>
            rw [hpop] at h
            injection h with h
            subst h
            exact errExt_trans hext1 (hrecS stB body (v2, st2) hbody)
  · injection h with h
    subst h
    exact errExt_refl st

theorem mkEvalExpr_errExt (F : FloatOps) (recS : SFun) (recE : EFun)
    (hrecS : ∀ st s r, recS st s = .ok r → ErrExt st r.2)
    (hrecE : ∀ st e r, recE st e = .ok r → ErrExt st r.2) :
    ∀ (st : EvalState) (e : Expression) r,
      mkEvalExpr F recS recE st e = .ok r → ErrExt st r.2 := by
  intro st e r h
  cases e with
  | integer v rg =>
    injection h with h; subst h; exact errExt_refl st
  | floatLit v rg =>
    injection h with h; subst h; exact errExt_refl st
  | ident name rg =>
    simp only [mkEvalExpr] at h
    split at h <;> try (split at h)
    all_goals (injection h with h; subst h; exact errExt_refl st)
  | binary ol oop orr rg =>
    rcases ol with _ | l <;> rcases oop with _ | op <;> rcases orr with _ | rr <;>
      simp only [mkEvalExpr] at h
    all_goals try (injection h with h; subst h; exact errExt_refl st)
    exact evalBinary_errExt F recE hrecE st l op rr r h
  | functionCall callee args rg =>
    simp only [mkEvalExpr] at h
    cases h1 : recE st callee with
    | error p => rw [h1] at h; exact absurd h (by simp)
    | ok p1 =>
      rw [h1] at h
      obtain ⟨cv, st1⟩ := p1
      simp only [EvalM.bind_ok] at h
      cases h2 : evalArgsList recE st1 args with
      | error p => rw [h2] at h; exact absurd h (by simp)
      | ok p2 =>
        rw [h2] at h
        obtain ⟨vals, st2⟩ := p2
        simp only [EvalM.bind_ok] at h
        exact errExt_trans (hrecE st callee (cv, st1) h1)
          (errExt_trans (evalArgsList_errExt recE hrecE args st1 (vals, st2) h2)
            (evalCall_errExt recS hrecS st2 cv vals args r h))
  | functionLit params rets obody rg =>
    simp only [mkEvalExpr] at h
    injection h with h; subst h; exact errExt_refl st
  | record params rg =>
    simp only [mkEvalExpr] at h
    injection h with h; subst h; exact errExt_refl st

theorem mkEvalStmt_errExt (recS : SFun) (recE : EFun)
    (hrecS : ∀ st s r, recS st s = .ok r → ErrExt st r.2)
    (hrecE : ∀ st e r, recE st e = .ok r → ErrExt st r.2) :
    ∀ (st : EvalState) (s : Statement) r,
      mkEvalStmt recS recE st s = .ok r → ErrExt st r.2 := by
  intro st s r h
  cases s with
  | decleration id idr ann oexpr =>
    cases oexpr with
    | none =>
      injection h with h; subst h; exact errExt_refl st
    | some ex =>
      cases ex with
      | record params rg =>
        simp only [mkEvalStmt] at h
        injection h with h; subst h; exact errExt_refl st
      | functionLit params rets obody rg =>
        cases obody with
        | some body =>
          simp only [mkEvalStmt] at h
          split at h
          · injection h with h; subst h; exact errExt_refl st
          · exact absurd h (by simp)
        | none =>
          simp only [mkEvalStmt] at h
          cases h1 : recE st (.functionLit params rets none rg) with
          | error p => rw [h1] at h; exact absurd h (by simp)
          | ok p1 =>
            rw [h1] at h
            obtain ⟨v, st1⟩ := p1
            simp only [EvalM.bind_ok] at h
            injection h with h
            subst h
            exact hrecE st _ (v, st1) h1
      | integer v rg =>
        simp only [mkEvalStmt] at h
        cases h1 : recE st (.integer v rg) with
        | error p => rw [h1] at h; exact absurd h (by simp)
        | ok p1 =>
          rw [h1] at h
          obtain ⟨v1, st1⟩ := p1
          simp only [EvalM.bind_ok] at h
          injection h with h
          subst h
          exact hrecE st _ (v1, st1) h1
      | floatLit v rg =>
        simp only [mkEvalStmt] at h
        cases h1 : recE st (.floatLit v rg) with
        | error p => rw [h1] at h; exact absurd h (by simp)
        | ok p1 =>
          rw [h1] at h
          obtain ⟨v1, st1⟩ := p1
          simp only [EvalM.bind_ok] at h
          injection h with h
          subst h
          exact hrecE st _ (v1, st1) h1
      | ident nm rg =>
        simp only [mkEvalStmt] at h
        cases h1 : recE st (.ident nm rg) with
        | error p => rw [h1] at h; exact absurd h (by simp)
        | ok p1 =>
          rw [h1] at h
          obtain ⟨v1, st1⟩ := p1
          simp only [EvalM.bind_ok] at h
          injection h with h
          subst h
          exact hrecE st _ (v1, st1) h1
      | binary ol oop orr rg =>
        simp only [mkEvalStmt] at h
        cases h1 : recE st (.binary ol oop orr rg) with
        | error p => rw [h1] at h; exact absurd h (by simp)
        | ok p1 =>
          rw [h1] at h
          obtain ⟨v1, st1⟩ := p1
          simp only [EvalM.bind_ok] at h
          injection h with h
          subst h
          exact hrecE st _ (v1, st1) h1
      | functionCall callee args rg =>
        simp only [mkEvalStmt] at h
        cases h1 : recE st (.functionCall callee args rg) with
        | error p => rw [h1] at h; exact absurd h (by simp)
        | ok p1 =>
          rw [h1] at h
          obtain ⟨v1, st1⟩ := p1
          simp only [EvalM.bind_ok] at h
          injection h with h
          subst h
          exact hrecE st _ (v1, st1) h1
  | expression e => exact hrecE st e r h
  | list stmts =>
    cases stmts with
    | nil =>
      simp only [mkEvalStmt, evalStmtSeq] at h
      simp only [EvalM.bind_ok] at h
      injection h with h; subst h; exact errExt_refl st
    | cons s1 rest =>
      cases rest with
      | nil => exact hrecS st s1 r h
      | cons s2 rest2 =>
        simp only [mkEvalStmt] at h
        cases h1 : evalStmtSeq recS st (s1 :: s2 :: rest2) with
        | error p => rw [h1] at h; exact absurd h (by simp)
        | ok p1 =>
          rw [h1] at h
          obtain ⟨vs, st1⟩ := p1
          simp only [EvalM.bind_ok] at h
          injection h with h
          subst h
          exact evalStmtSeq_errExt recS hrecS _ st (vs, st1) h1
  | other =>
    injection h with h; subst h; exact errExt_refl st

theorem evalAt_errors_extend (F : FloatOps) :
    ∀ n : Nat,
      (∀ (st : EvalState) (e : Expression) r, evalExpr F n st e = .ok r → ErrExt st r.2)
      ∧ (∀ (st : EvalState) (s : Statement) r, evalStmt F n st s = .ok r → ErrExt st r.2) := by
  intro n
  induction n with
  | zero =>
    constructor
    · intro st e r h
      exact absurd h (by simp [evalExpr, evalAt])
    · intro st s r h
      exact absurd h (by simp [evalStmt, evalAt])
  | succ n ih =>
    obtain ⟨ihE, ihS⟩ := ih
    constructor
    · intro st e r h
      rw [evalExpr_succ] at h
      exact mkEvalExpr_errExt F (evalStmt F n) (evalExpr F n) ihS ihE st e r h
    · intro st s r h
      rw [evalStmt_succ] at h
      exact mkEvalStmt_errExt (evalStmt F n) (evalExpr F n) ihS ihE st s r h

theorem evaluate_errors_extend (F : FloatOps) (n : Nat) :
    ∀ (stmts : List Statement) (st : EvalState) r,
      evaluate F n st stmts = .ok r → ErrExt st r.2 := by
  intro stmts
  induction stmts with
  | nil =>
    intro st r h
    injection h with h
    subst h
    exact errExt_refl st
  | cons s rest ih =>
    intro st r h
    simp only [evaluate] at h
    cases h1 : evalStmt F n st s with
    | error p => rw [h1] at h; exact absurd h (by simp)
    | ok p1 =>
      rw [h1] at h
      obtain ⟨v, st1⟩ := p1
      simp only [EvalM.bind_ok] at h
      cases h2 : evaluate F n st1 rest with
      | error p => rw [h2] at h; exact absurd h (by simp)
      | ok p2 =>
        rw [h2] at h
        obtain ⟨vs, st2⟩ := p2
        simp only [EvalM.bind_ok] at h
        injection h with h
        subst h
        exact errExt_trans ((evalAt_errors_extend F n).2 st s (v, st1) h1)
          (ih st1 (vs, st2) h2)

/-! ## C7: the silent-empty policy -/

/-- **C7.**  Over a whole evaluation pass errors are only appended, and
every appended error is a `TypeMismatch` (the sole kind the evaluator
ever constructs, at call sites).  The four silent paths each produce
the empty value with no diagnostic and without aborting the pass:
an unresolved identifier, a call whose callee value does not carry a
Function type, a member-access assignment whose shape is not
recognized, and a binary operator applied to an unsupported operand
type pair. -/
theorem claim7_errors_only_type_mismatch_silent_empty (F : FloatOps) :
    (∀ (n : Nat) (st : EvalState) (stmts : List Statement) (r : List ConstValue × EvalState),
      evaluate F n st stmts = .ok r →
      ∃ tail, r.2.errors = st.errors ++ tail
        ∧ ∀ err ∈ tail, ∃ fnd exp, err.kind = .typeMismatch fnd exp)
    ∧ (∀ (n : Nat) (st : EvalState) (name : String) (rg : Range),
        st.scope.find_symbol name = none →
        evalExpr F (n + 1) st (.ident name rg) = .ok (ConstValue.empty, st))
    ∧ (∀ (recS : SFun) (st : EvalState) (cv : ConstValue) (vals : List ConstValue)
        (raws : List Expression),
        (∀ ps rs, cv.ty ≠ .function ps rs) →
        evalCall recS st cv vals raws = .ok (ConstValue.empty, st))
    ∧ (∀ (recE : EFun) (st st1 : EvalState) (dl dr rexp : Expression) (rv : ConstValue)
        (rb : Range),
        recE st rexp = .ok (rv, st1) →
        ¬(isIdentExpr dl = true ∧ isIdentExpr dr = true) →
        ¬(isDotBinaryExpr dl = true ∧ isIdentExpr dr = true) →
        evalBinary F recE st (.binary (some dl) (some .dot) (some dr) rb) .equals rexp
          = .ok (ConstValue.empty, st1))
    ∧ (∀ (op : Operator) (l rv : ConstValue),
        supportedPair l.ty rv.ty = false →
        binOpValues F op l rv = .ok ConstValue.empty) := by
  refine ⟨fun n st stmts r h => ?_, fun n st name rg hf => ?_, fun recS st cv vals raws hty => ?_,
    fun recE st st1 dl dr rexp rv rb hre h1 h2 => ?_, fun op l rv hsup => ?_⟩
  · obtain ⟨tail, htail⟩ := evaluate_errors_extend F n stmts st r h
    exact ⟨tail, htail, fun err _ => by
      cases hk : err.kind with
      | typeMismatch fnd exp => exact ⟨fnd, exp, rfl⟩⟩
  · rw [evalExpr_succ]
    simp only [mkEvalExpr, hf]
  · rcases cv with ⟨t, k⟩
    cases t <;> cases k <;> first
      | exact absurd rfl (hty _ _)
      | rfl
  · simp only [evalBinary]
    rw [hre]
    simp only [EvalM.bind_ok]
    rw [follow_member_access_other_shapes st1.scope (fun _ => rv) dl dr h1 h2]
    rfl
  · rcases l with ⟨lt, lk⟩
    rcases rv with ⟨rt, rk⟩
    cases lt <;> cases rt <;>
      simp_all [binOpValues, supportedPair]

/-- Witness for C7: the pass hypothesis at the empty program, the
unresolved name `q`, the non-function callee `CoercibleInteger 1`, the
unrecognized shape `(1 .​ 2) = x`, and the unsupported pair
(empty, empty). -/
theorem claim7_errors_only_type_mismatch_silent_empty_witness :
    (∃ tail, stRoot.errors = stRoot.errors ++ tail
      ∧ ∀ err ∈ tail, ∃ fnd exp, err.kind = .typeMismatch fnd exp)
    ∧ evalExpr zeroFloatOps 1 stRoot (.ident "q" rng0) = .ok (ConstValue.empty, stRoot)
    ∧ evalCall constStmtEval stRoot (ConstValue.cinteger 1) [] [] = .ok (ConstValue.empty, stRoot)
    ∧ evalBinary zeroFloatOps constExprEval stRoot
        (.binary (some (.integer 1 rng0)) (some .dot) (some (.integer 2 rng0)) rng0) .equals
        (.ident "x" rng0)
      = .ok (ConstValue.empty, stRoot)
    ∧ binOpValues zeroFloatOps .plus ConstValue.empty ConstValue.empty
      = .ok ConstValue.empty := by
  refine ⟨?_, ?_, ?_, ?_, ?_⟩
  · exact (claim7_errors_only_type_mismatch_silent_empty zeroFloatOps).1 0 stRoot []
      ([], stRoot) rfl
  · exact (claim7_errors_only_type_mismatch_silent_empty zeroFloatOps).2.1 0 stRoot "q" rng0 rfl
  · exact (claim7_errors_only_type_mismatch_silent_empty zeroFloatOps).2.2.1 constStmtEval
      stRoot (ConstValue.cinteger 1) [] []
      (fun ps rs h => Ty.noConfusion h)
  · exact (claim7_errors_only_type_mismatch_silent_empty zeroFloatOps).2.2.2.1 constExprEval
      stRoot stRoot (.integer 1 rng0) (.integer 2 rng0) (.ident "x" rng0)
      ConstValue.empty rng0 rfl (by decide) (by decide)
  · exact (claim7_errors_only_type_mismatch_silent_empty zeroFloatOps).2.2.2.2 .plus
      ConstValue.empty ConstValue.empty rfl

/-- Witness for C6 at the concrete manager `smC6`: following `p.x`
resolves, and the mutator is applied to the member `x` in place. -/
theorem claim6_follow_member_access_shapes_witness :
    smC6.follow_member_access_mut (.ident "p" rng0) (.ident "x" rng0)
        (fun _ => ConstValue.cinteger 9)
      = (smC6.setNode 1
          { smC6.nodeAt 1 with
            value := .constValue (.mk (.recordInstance (.cons "x" .coercibleInteger .nil))
              (.recordInstance
                ((CvEnv.cons "x" (ConstValue.cinteger 1) .nil).setExisting "x"
                  (ConstValue.cinteger 9)))) }, true) :=
  ((((claim6_follow_member_access_shapes smC6 (fun _ => ConstValue.cinteger 9)).1
      "p" "x" rng0 rng0).2 1 rfl).1
    (.cons "x" .coercibleInteger .nil) (.cons "x" (ConstValue.cinteger 1) .nil) rfl).2
    (ConstValue.cinteger 1) rfl

end XlangVm
